import Mathlib

/-!
Shallow embedding of the maze-analysis engine (multi-source BFS flood fill
plus path reconstruction) from `src/maze/analysis.pyx`, together with the
historical variants in `src/maze.pyx`, `src/unnamed/part_000` and
`src/unnamed/part_002`.  Machine integers are modelled as `Int`
(distances fit far below any overflow for the grids the proofs quantify
over pointwise); the `astype('int8')` cast in `MazeAnalysis.__init__` is
modelled explicitly by `int8cast`.  The C++ `std::queue` / Python `deque`
is a Lean `List` used FIFO (pop at the head, push at the tail), and the
`while` loops are given explicit fuel; termination (claim about the flood
always completing) is the theorem that the chosen fuel always suffices.
-/

namespace MazeSpec

/-- A grid is modelled as a total function from (row, column) to the cell
value, together with explicit dimensions `w` (rows) and `h` (columns)
passed around exactly as the source passes `w, h`. -/
abbrev Grid := Nat → Nat → Int

/-- Pointwise update of a two-argument function, modelling a single numpy
array element assignment `a[x, y] = v`. -/
def update2 {α : Type} (f : Nat → Nat → α) (x y : Nat) (v : α) : Nat → Nat → α :=
  fun a b => if a = x ∧ b = y then v else f a b

/-- The C `qitem` struct: coordinates plus the distance carried on the
BFS queue. -/
structure QItem where
  x : Nat
  y : Nat
  d : Int
deriving DecidableEq, Repr

/-- The mutable state of the flood fill: the two output arrays and the
work queue. -/
structure St where
  dist : Nat → Nat → Int
  dirs : Nat → Nat → Char
  q : List QItem

/-- Initial state: `distances = np.full(shape, -1)`,
`directions = np.full(shape, b' ')`, empty queue. -/
def initSt : St :=
  { dist := fun _ _ => -1, dirs := fun _ _ => ' ', q := [] }

/-- One cell of the seeding scan in `flood` (analysis.pyx lines 41-48):
walls get `'#'`, goal cells (`maze == 1`) get distance `0`, tag `'X'`,
and are enqueued. -/
def seedCell (maze : Grid) (s : St) (x y : Nat) : St :=
  if maze x y < 0 then
    { s with dirs := update2 s.dirs x y '#' }
  else if maze x y = 1 then
    { dist := update2 s.dist x y 0
      dirs := update2 s.dirs x y 'X'
      q := s.q ++ [⟨x, y, 0⟩] }
  else s

/-- The row-major double scan `for x in range(w): for y in range(h)`. -/
def seedLoop (maze : Grid) (w h : Nat) : St :=
  (List.range w).foldl
    (fun s x => (List.range h).foldl (fun s2 y => seedCell maze s2 x y) s)
    initSt

/-- Source order pairing of `dir_offsets` with `dir_chars`:
`[(1,0),(-1,0),(0,1),(0,-1)]` with chars `['^','v','<','>']`. -/
def dirOffsets : List ((Int × Int) × Char) :=
  [((1, 0), '^'), ((-1, 0), 'v'), ((0, 1), '<'), ((0, -1), '>')]

/-- The neighbour coordinate `(item.x + offset.x, item.y + offset.y)`
as integers (it may fall outside the grid before the bounds check). -/
def nbr (it : QItem) (oc : (Int × Int) × Char) : Int × Int :=
  ((it.x : Int) + oc.1.1, (it.y : Int) + oc.1.2)

/-- Relaxation of one neighbour inside the BFS loop (analysis.pyx lines
55-63): bounds check, then `maze >= 0 and distances == -1` check, then
assign distance `item.distance + 1`, direction char, and push. -/
def relax (maze : Grid) (w h : Nat) (it : QItem) (s : St)
    (oc : (Int × Int) × Char) : St :=
  let nx := (nbr it oc).1
  let ny := (nbr it oc).2
  if 0 ≤ nx ∧ nx < (w : Int) ∧ 0 ≤ ny ∧ ny < (h : Int) then
    if 0 ≤ maze nx.toNat ny.toNat ∧ s.dist nx.toNat ny.toNat = -1 then
      { dist := update2 s.dist nx.toNat ny.toNat (it.d + 1)
        dirs := update2 s.dirs nx.toNat ny.toNat oc.2
        q := s.q ++ [⟨nx.toNat, ny.toNat, it.d + 1⟩] }
    else s
  else s

/-- Processing one popped queue item: the `for i in range(4)` loop. -/
def stepItem (maze : Grid) (w h : Nat) (it : QItem) (s : St) : St :=
  dirOffsets.foldl (relax maze w h it) s

/-- The `while not q.empty()` loop with explicit fuel. -/
def loopFuel (maze : Grid) (w h : Nat) : Nat → St → Option St
  | 0, s => match s.q with
    | [] => some s
    | _ :: _ => none
  | n + 1, s => match s.q with
    | [] => some s
    | it :: rest => loopFuel maze w h n (stepItem maze w h it { s with q := rest })

/-- The function `directions2reachable` (analysis.pyx lines 23-28): scan all cells,
false as soon as a `' '` is seen. -/
def directions2reachable (dirs : Nat → Nat → Char) (w h : Nat) : Bool :=
  (List.range w).all fun x => (List.range h).all fun y => dirs x y != ' '

/-- The triple returned by `flood` and stored by `MazeAnalysis.__init__`. -/
structure FloodOut where
  distances : Nat → Nat → Int
  directions : Nat → Nat → Char
  is_reachable : Bool

/-- Fuel that always suffices for the BFS loop (proved below): each queue
item costs one iteration, and at most one item per cell is ever pushed on
top of the seeds. -/
def floodFuelBound (w h : Nat) : Nat := 5 * (w * h)

/-- The function `flood(maze, w, h)` from `src/maze/analysis.pyx`.  `none` would mean
the fuel ran out; the termination theorem shows this never happens. -/
def flood (maze : Grid) (w h : Nat) : Option FloodOut :=
  (loopFuel maze w h (floodFuelBound w h) (seedLoop maze w h)).map fun s =>
    { distances := s.dist
      directions := s.dirs
      is_reachable := directions2reachable s.dirs w h }

/-- The distance field entry produced by a flood, as an `Option`. -/
def floodDist (maze : Grid) (w h x y : Nat) : Option Int :=
  (flood maze w h).map fun o => o.distances x y

/-- The direction field entry produced by a flood, as an `Option`. -/
def floodDir (maze : Grid) (w h x y : Nat) : Option Char :=
  (flood maze w h).map fun o => o.directions x y

/-- The reachability boolean produced by a flood, as an `Option`. -/
def floodReach (maze : Grid) (w h : Nat) : Option Bool :=
  (flood maze w h).map fun o => o.is_reachable

/-- The `std::map` built in `build_path`: `'v' ↦ (1,0)`, `'^' ↦ (-1,0)`,
`'>' ↦ (0,1)`, `'<' ↦ (0,-1)`; C++ `operator[]` value-initializes a
missing key, hence `(0, 0)` for any other char. -/
def deltaOf (ch : Char) : Int × Int :=
  if ch = 'v' then (1, 0)
  else if ch = '^' then (-1, 0)
  else if ch = '>' then (0, 1)
  else if ch = '<' then (0, -1)
  else (0, 0)

/-- Result of `build_path`: a path, the `NoPathExistsException`, an
out-of-bounds read (the source compiles with `boundscheck(False)`, so
such a read would be undefined behaviour), or fuel exhaustion of the
modelled `while` loop. -/
inductive PathResult where
  | ok (p : List (Int × Int))
  | noPathError
  | outOfBounds
  | fuelExhausted
deriving DecidableEq, Repr

/-- The `while directions[row, column] != b'X'` loop of `build_path`:
step by the offset the direction char names and append the new
coordinate. -/
def pathLoop (dirs : Nat → Nat → Char) (w h : Nat) :
    Nat → Int → Int → List (Int × Int) → PathResult
  | 0, _, _, _ => .fuelExhausted
  | fuel + 1, r, c, acc =>
    if 0 ≤ r ∧ r < (w : Int) ∧ 0 ≤ c ∧ c < (h : Int) then
      if dirs r.toNat c.toNat = 'X' then .ok acc
      else
        let d := deltaOf (dirs r.toNat c.toNat)
        pathLoop dirs w h fuel (r + d.1) (c + d.2) (acc ++ [(r + d.1, c + d.2)])
    else .outOfBounds

/-- The function `build_path(directions, row, column)` (analysis.pyx lines 70-85):
raise `NoPathExistsException` on `'#'` or `' '`, else start the path at
`(row, column)` and walk the direction field. -/
def build_path (dirs : Nat → Nat → Char) (w h : Nat) (row col : Int)
    (fuel : Nat) : PathResult :=
  if 0 ≤ row ∧ row < (w : Int) ∧ 0 ≤ col ∧ col < (h : Int) then
    if dirs row.toNat col.toNat = '#' ∨ dirs row.toNat col.toNat = ' ' then
      .noPathError
    else pathLoop dirs w h fuel row col [(row, col)]
  else .outOfBounds

/-- The method `MazeAnalysis.path(row, column)`, i.e. `build_path` on the flood's
direction field; the fuel `w * h + 1` is proved sufficient. -/
def floodPath (maze : Grid) (w h : Nat) (r c : Int) : Option PathResult :=
  (flood maze w h).map fun o => build_path o.directions w h r c (w * h + 1)

/-- The C cast performed by `maze.astype('int8')`: wrap into [-128, 128). -/
def int8cast (v : Int) : Int := (v + 128) % 256 - 128

/-- Cell lookup in a list-of-rows grid (in-bounds accesses only are ever
relevant; the default is never reached under the bounds hypotheses). -/
def gridFun (g : List (List Int)) : Grid :=
  fun x y => (g.getD x []).getD y 0

/-- Behaviour of `np.atleast_2d` on the shapes that occur: an empty input becomes the
1 × 0 array, a non-empty list of rows keeps its row count. -/
def atleast2dRows (g : List (List Int)) : Nat := max g.length 1

/-- Column count after `np.atleast_2d`. -/
def atleast2dCols (g : List (List Int)) : Nat := (g.headD []).length

/-- Rectangularity of a list-of-rows grid: every row has the length of
the first one.  The empty list is rectangular (it becomes the 1 × 0
array under `np.atleast_2d`). -/
def isRectangular (g : List (List Int)) : Bool :=
  g.all fun row => row.length == (g.headD []).length

/-- Outcome of running `MazeAnalysis.__init__`.  On a jagged
(non-rectangular) input, `maze.astype('int8')` raises numpy's own
error (`ValueError`/`AttributeError`) before any engine code runs;
that library-level failure is `numpyTypeError`.  It is not an
engine-defined error: the source defines no `InvalidGridError`. -/
inductive AnalysisOutcome where
  | ok (o : FloodOut)
  | numpyTypeError

/-- The constructor `MazeAnalysis.__init__` from `src/maze/analysis.pyx`:
`maze = np.atleast_2d(maze.astype('int8'))` then
`flood(maze, *maze.shape)`.  The source performs no validation and
defines no `InvalidGridError`; a jagged input dies inside numpy's
`astype` (modelled by `numpyTypeError`), every rectangular input —
the empty one included — is flooded. -/
def mazeAnalysis (g : List (List Int)) : Option AnalysisOutcome :=
  if isRectangular g then
    (flood (fun x y => int8cast (gridFun g x y))
      (atleast2dRows g) (atleast2dCols g)).map AnalysisOutcome.ok
  else some AnalysisOutcome.numpyTypeError

/-- Whether the analysis completed with a full result. -/
def analysisOk (g : List (List Int)) : Bool :=
  match mazeAnalysis g with
  | some (AnalysisOutcome.ok _) => true
  | _ => false

/-- Direction field entry of a completed analysis. -/
def analysisDir (g : List (List Int)) (x y : Nat) : Option Char :=
  match mazeAnalysis g with
  | some (AnalysisOutcome.ok o) => some (o.directions x y)
  | _ => none

/-- Distance field entry of a completed analysis. -/
def analysisDist (g : List (List Int)) (x y : Nat) : Option Int :=
  match mazeAnalysis g with
  | some (AnalysisOutcome.ok o) => some (o.distances x y)
  | _ => none

/-- Reachability flag of a completed analysis. -/
def analysisReach (g : List (List Int)) : Option Bool :=
  match mazeAnalysis g with
  | some (AnalysisOutcome.ok o) => some o.is_reachable
  | _ => none

/-! ## The mathematical shortest-path specification -/

/-- Cardinal adjacency of two cells given by natural coordinates. -/
def Adj (x y x2 y2 : Nat) : Prop :=
  (x2 = x + 1 ∧ y2 = y) ∨ (x = x2 + 1 ∧ y2 = y) ∨
  (y2 = y + 1 ∧ x2 = x) ∨ (y = y2 + 1 ∧ x2 = x)

/-- Reachability `Reach maze w h x y n`: there is a walk of `n` cardinal hops from
`(x, y)` to some goal cell, staying in bounds and on non-wall cells. -/
inductive Reach (maze : Grid) (w h : Nat) : Nat → Nat → Nat → Prop
  | goal {x y : Nat} : x < w → y < h → maze x y = 1 → Reach maze w h x y 0
  | step {x y x2 y2 n : Nat} : x < w → y < h → 0 ≤ maze x y →
      Adj x y x2 y2 → Reach maze w h x2 y2 n → Reach maze w h x y (n + 1)

/-- One cardinal step between integer coordinate pairs. -/
def CardStep (a b : Int × Int) : Prop :=
  (b.1 = a.1 + 1 ∧ b.2 = a.2) ∨ (b.1 = a.1 - 1 ∧ b.2 = a.2) ∨
  (b.2 = a.2 + 1 ∧ b.1 = a.1) ∨ (b.2 = a.2 - 1 ∧ b.1 = a.1)

/-- The four direction-arrow characters. -/
def arrowChars : List Char := ['^', 'v', '<', '>']

/-! ## Basic lemmas about the building blocks -/

/-! ## Invariant structures, measures, variants and example grids -/

/-- All grid cells in the row-major order of the double scan. -/
def cells (w h : Nat) : List (Nat × Nat) :=
  (List.range w).flatMap fun x => (List.range h).map fun y => (x, y)

/-- The invariant of the BFS loop, carried from the seeded state to the
final (empty-queue) state.  `dist`/`dirs` are the two output arrays and
`q` the FIFO work queue. -/
structure Inv (maze : Grid) (w h : Nat) (s : St) : Prop where
  qmem : ∀ it ∈ s.q, it.x < w ∧ it.y < h ∧ 0 ≤ maze it.x it.y ∧
    s.dist it.x it.y = it.d ∧ 0 ≤ it.d
  qsorted : List.Chain' (fun p q2 : QItem => p.d ≤ q2.d) s.q
  qband : ∀ a : QItem, s.q.head? = some a → ∀ it ∈ s.q, it.d ≤ a.d + 1
  oob : ∀ x y : Nat, ¬(x < w ∧ y < h) → s.dist x y = -1 ∧ s.dirs x y = ' '
  wallIff : ∀ x y : Nat, x < w → y < h → (s.dirs x y = '#' ↔ maze x y < 0)
  goalIff : ∀ x y : Nat, x < w → y < h → (s.dirs x y = 'X' ↔ maze x y = 1)
  goalZero : ∀ x y : Nat, x < w → y < h → maze x y = 1 → s.dist x y = 0
  tri : ∀ x y : Nat, x < w → y < h →
    (s.dist x y = -1 ∧ (s.dirs x y = '#' ∨ s.dirs x y = ' ')) ∨
    (s.dist x y = 0 ∧ s.dirs x y = 'X') ∨
    (1 ≤ s.dist x y ∧ s.dirs x y ∈ arrowChars)
  distExact : ∀ x y : Nat, x < w → y < h → ∀ n : Nat, s.dist x y = (n : Int) →
    Reach maze w h x y n ∧ ∀ m : Nat, m < n → ¬Reach maze w h x y m
  arrow : ∀ x y : Nat, x < w → y < h → s.dirs x y ∈ arrowChars →
    ∃ tx ty : Nat, tx < w ∧ ty < h ∧
      (tx : Int) = (x : Int) + (deltaOf (s.dirs x y)).1 ∧
      (ty : Int) = (y : Int) + (deltaOf (s.dirs x y)).2 ∧
      s.dist tx ty = s.dist x y - 1
  processed : ∀ x y : Nat, x < w → y < h → 0 ≤ s.dist x y →
    (∃ it ∈ s.q, it.x = x ∧ it.y = y) ∨
    (∀ x2 y2 : Nat, x2 < w → y2 < h → 0 ≤ maze x2 y2 → Adj x y x2 y2 →
      0 ≤ s.dist x2 y2)
  frontier : ∀ x y : Nat, x < w → y < h → s.dist x y = -1 →
    ∀ k : Nat, Reach maze w h x y k →
    ∃ a : QItem, s.q.head? = some a ∧ a.d + 1 ≤ (k : Int)

/-- The weaker invariant holding at each point while the four neighbours
of the popped item `(x0, y0)` (with queue distance `d0` and distance
array `D0` at the moment of the pop) are being relaxed. -/
structure MInv (maze : Grid) (w h : Nat) (x0 y0 : Nat) (d0 : Int)
    (D0 : Nat → Nat → Int) (s : St) : Prop where
  qmem : ∀ it ∈ s.q, it.x < w ∧ it.y < h ∧ 0 ≤ maze it.x it.y ∧
    s.dist it.x it.y = it.d ∧ 0 ≤ it.d
  qsorted : List.Chain' (fun p q2 : QItem => p.d ≤ q2.d) s.q
  qband2 : ∀ it ∈ s.q, d0 ≤ it.d ∧ it.d ≤ d0 + 1
  oob : ∀ x y : Nat, ¬(x < w ∧ y < h) → s.dist x y = -1 ∧ s.dirs x y = ' '
  wallIff : ∀ x y : Nat, x < w → y < h → (s.dirs x y = '#' ↔ maze x y < 0)
  goalIff : ∀ x y : Nat, x < w → y < h → (s.dirs x y = 'X' ↔ maze x y = 1)
  goalZero : ∀ x y : Nat, x < w → y < h → maze x y = 1 → s.dist x y = 0
  tri : ∀ x y : Nat, x < w → y < h →
    (s.dist x y = -1 ∧ (s.dirs x y = '#' ∨ s.dirs x y = ' ')) ∨
    (s.dist x y = 0 ∧ s.dirs x y = 'X') ∨
    (1 ≤ s.dist x y ∧ s.dirs x y ∈ arrowChars)
  distExact : ∀ x y : Nat, x < w → y < h → ∀ n : Nat, s.dist x y = (n : Int) →
    Reach maze w h x y n ∧ ∀ m : Nat, m < n → ¬Reach maze w h x y m
  arrow : ∀ x y : Nat, x < w → y < h → s.dirs x y ∈ arrowChars →
    ∃ tx ty : Nat, tx < w ∧ ty < h ∧
      (tx : Int) = (x : Int) + (deltaOf (s.dirs x y)).1 ∧
      (ty : Int) = (y : Int) + (deltaOf (s.dirs x y)).2 ∧
      s.dist tx ty = s.dist x y - 1
  mono : ∀ x y : Nat, D0 x y ≠ -1 → s.dist x y = D0 x y
  processed2 : ∀ x y : Nat, x < w → y < h → 0 ≤ s.dist x y →
    (∃ it ∈ s.q, it.x = x ∧ it.y = y) ∨ (x = x0 ∧ y = y0) ∨
    (∀ x2 y2 : Nat, x2 < w → y2 < h → 0 ≤ maze x2 y2 → Adj x y x2 y2 →
      0 ≤ s.dist x2 y2)

/-- The frontier fact about the state at the moment of the pop, frozen
while the popped item's neighbours are relaxed. -/
def FrontierAt (maze : Grid) (w h : Nat) (d0 : Int)
    (D0 : Nat → Nat → Int) : Prop :=
  ∀ x y : Nat, x < w → y < h → D0 x y = -1 →
    ∀ k : Nat, Reach maze w h x y k → d0 + 1 ≤ (k : Int)

/-- Number of still-unassigned cells: the termination measure's main part. -/
def unassigned (w h : Nat) (d : Nat → Nat → Int) : Nat :=
  ((Finset.range w ×ˢ Finset.range h).filter fun c => d c.1 c.2 = -1).card

/-- Termination measure: each iteration pops one item; each push is paid
for by a cell becoming assigned forever. -/
def mu (w h : Nat) (s : St) : Nat := 4 * unassigned w h s.dist + s.q.length

/-- Seeding as done in `part_000`/`part_002`: walls via
`np.place(directions, maze < 0, b'#')`, then the goal list from
`np.where(maze == 1)` (row-major) is walked, setting distance `0`,
tag `'X'` and pushing each goal. -/
def seedPlaceBase (maze : Grid) (w h : Nat) : St :=
  { dist := fun _ _ => -1
    dirs := fun x y => if x < w ∧ y < h ∧ maze x y < 0 then '#' else ' '
    q := [] }

def seedPlace (maze : Grid) (w h : Nat) : St :=
  ((cells w h).filter fun c => maze c.1 c.2 = 1).foldl
    (fun s g =>
      { dist := update2 s.dist g.1 g.2 0
        dirs := update2 s.dirs g.1 g.2 'X'
        q := s.q ++ [⟨g.1, g.2, 0⟩] })
    (seedPlaceBase maze w h)

/-- The C cast a store into an int16 numpy array performs: wrap into
[-32768, 32768).  `part_000` and `part_002` allocate their distance
arrays with `dtype='int16'`, so the value written by
`distances[neighbor] = item.distance + 1` wraps, while the distance
carried on the queue (a C `int` / Python int) does not. -/
def int16cast (v : Int) : Int := (v + 32768) % 65536 - 32768

/-- Relaxation body shared by all the variants' BFS loops, parameterized
by the cast `sg` that storing into the distance array applies:
`analysis.pyx` stores into int32 (no wrap below 2^31, modelled as `id`),
`part_000`/`part_002` store into int16 (`int16cast`).  The queue entry
keeps the uncast value, exactly as in the sources. -/
def relaxW (sg : Int → Int) (maze : Grid) (w h : Nat) (it : QItem) (s : St)
    (oc : (Int × Int) × Char) : St :=
  let nx := (nbr it oc).1
  let ny := (nbr it oc).2
  if 0 ≤ nx ∧ nx < (w : Int) ∧ 0 ≤ ny ∧ ny < (h : Int) then
    if 0 ≤ maze nx.toNat ny.toNat ∧ s.dist nx.toNat ny.toNat = -1 then
      { dist := update2 s.dist nx.toNat ny.toNat (sg (it.d + 1))
        dirs := update2 s.dirs nx.toNat ny.toNat oc.2
        q := s.q ++ [⟨nx.toNat, ny.toNat, it.d + 1⟩] }
    else s
  else s

/-- Processing one popped item with store-cast `sg`; with
`sg := int16cast` this is the body of `part_000`'s loop. -/
def stepItemW (sg : Int → Int) (maze : Grid) (w h : Nat) (it : QItem)
    (s : St) : St :=
  dirOffsets.foldl (relaxW sg maze w h it) s

/-- The variants' BFS loop with fuel and store-cast `sg`. -/
def loopFuelW (sg : Int → Int) (maze : Grid) (w h : Nat) :
    Nat → St → Option St
  | 0, s => match s.q with
    | [] => some s
    | _ :: _ => none
  | n + 1, s => match s.q with
    | [] => some s
    | it :: rest =>
      loopFuelW sg maze w h n (stepItemW sg maze w h it { s with q := rest })

/-- The BFS body of `part_002`: pop `(x, y), distance`, increment
`distance`, store it through the int16 array, push it uncast. -/
def stepItem002 (maze : Grid) (w h : Nat) (it : QItem) (s : St) : St :=
  dirOffsets.foldl
    (fun s2 oc =>
      let distance := it.d + 1
      let nx := (it.x : Int) + oc.1.1
      let ny := (it.y : Int) + oc.1.2
      if 0 ≤ nx ∧ nx < (w : Int) ∧ 0 ≤ ny ∧ ny < (h : Int) then
        if 0 ≤ maze nx.toNat ny.toNat ∧ s2.dist nx.toNat ny.toNat = -1 then
          { dist := update2 s2.dist nx.toNat ny.toNat (int16cast distance)
            dirs := update2 s2.dirs nx.toNat ny.toNat oc.2
            q := s2.q ++ [⟨nx.toNat, ny.toNat, distance⟩] }
        else s2
      else s2) s

/-- The `while stack_open` loop of `part_002` with fuel. -/
def loopFuel002 (maze : Grid) (w h : Nat) : Nat → St → Option St
  | 0, s => match s.q with
    | [] => some s
    | _ :: _ => none
  | n + 1, s => match s.q with
    | [] => some s
    | it :: rest =>
      loopFuel002 maze w h n (stepItem002 maze w h it { s with q := rest })

/-- The test `b' ' not in self.directions` as computed by `part_000`/`part_002`
and by `src/maze.pyx`. -/
def spaceNotIn (dirs : Nat → Nat → Char) (w h : Nat) : Bool :=
  !((List.range w).any fun x => (List.range h).any fun y => dirs x y == ' ')

/-- The constructor `MazeAnalysis.__init__` of `src/unnamed/part_002`
(deque-based BFS, int16 distance array). -/
def flood002 (maze : Grid) (w h : Nat) : Option FloodOut :=
  (loopFuel002 maze w h (floodFuelBound w h) (seedPlace maze w h)).map fun s =>
    { distances := s.dist
      directions := s.dirs
      is_reachable := spaceNotIn s.dirs w h }

/-- The constructor `MazeAnalysis.__init__` of `src/unnamed/part_000`
(C++ queue, the `relaxW int16cast` body is exactly its relaxation:
store `item.distance+1` through the int16 array, push it uncast;
`np.place`/`np.where` seeding). -/
def flood000 (maze : Grid) (w h : Nat) : Option FloodOut :=
  (loopFuelW int16cast maze w h (floodFuelBound w h) (seedPlace maze w h)).map
    fun s =>
      { distances := s.dist
        directions := s.dirs
        is_reachable := spaceNotIn s.dirs w h }

/-- Distance field entry of a `part_002` flood, as an `Option`. -/
def flood002Dist (maze : Grid) (w h x y : Nat) : Option Int :=
  (flood002 maze w h).map fun o => o.distances x y

/-- Distance field entry of a `part_000` flood, as an `Option`. -/
def flood000Dist (maze : Grid) (w h x y : Nat) : Option Int :=
  (flood000 maze w h).map fun o => o.distances x y

/-- A 1 × h corridor, all cells open, one goal in the last column:
the grid on which the int16 distance arrays of the variants wrap. -/
def corridorMaze (h : Nat) : Grid := fun _ y => if y = h - 1 then 1 else 0

/-- The BFS state on the corridor after `k` loop iterations (for
`k ≤ h - 1`): cells in columns `h-1-k .. h-1` are assigned, the value
stored for column `y` is the store-cast of the true distance `h-1-y`
(`0` uncast at the goal), and the queue holds the single frontier cell. -/
def corridorSt (sg : Int → Int) (h k : Nat) : St :=
  { dist := fun x y =>
      if x = 0 ∧ h - 1 - k ≤ y ∧ y < h then
        (if y = h - 1 then 0 else sg ((h - 1 - y : Nat) : Int))
      else -1
    dirs := fun x y =>
      if x = 0 ∧ h - 1 - k ≤ y ∧ y < h then
        (if y = h - 1 then 'X' else '>')
      else ' '
    q := [⟨0, h - 1 - k, (k : Int)⟩] }

/-- The final BFS state on the corridor: everything assigned, queue
empty. -/
def corridorFin (sg : Int → Int) (h : Nat) : St :=
  { dist := (corridorSt sg h (h - 1)).dist
    dirs := (corridorSt sg h (h - 1)).dirs
    q := [] }

def exGrid : List (List Int) := [[5, -1, 1], [7, -1, 7], [3, 3, 3]]

def exMaze : Grid := gridFun exGrid

def exWallMaze : Grid := gridFun [[-1]]

theorem update2_same {α : Type} (f : Nat → Nat → α) (x y : Nat) (v : α) :
    update2 f x y v x y = v := by
  simp [update2]

theorem update2_ne {α : Type} (f : Nat → Nat → α) (x y a b : Nat) (v : α)
    (h : ¬(a = x ∧ b = y)) : update2 f x y v a b = f a b := by
  simp [update2, h]

/-- Full case analysis of one `relax` call: either it pushed a fresh
in-bounds, non-wall, unassigned neighbour, or it left the state alone and
no such neighbour exists at this offset. -/
theorem relax_spec (maze : Grid) (w h : Nat) (it : QItem) (s : St)
    (oc : (Int × Int) × Char) :
    (∃ ux uy : Nat, (ux : Int) = (nbr it oc).1 ∧ (uy : Int) = (nbr it oc).2 ∧
        ux < w ∧ uy < h ∧ 0 ≤ maze ux uy ∧ s.dist ux uy = -1 ∧
        relax maze w h it s oc =
          { dist := update2 s.dist ux uy (it.d + 1)
            dirs := update2 s.dirs ux uy oc.2
            q := s.q ++ [⟨ux, uy, it.d + 1⟩] }) ∨
    (relax maze w h it s oc = s ∧
      ∀ ux uy : Nat, (ux : Int) = (nbr it oc).1 → (uy : Int) = (nbr it oc).2 →
        ux < w → uy < h → ¬(0 ≤ maze ux uy ∧ s.dist ux uy = -1)) := by
  by_cases hb : 0 ≤ (nbr it oc).1 ∧ (nbr it oc).1 < (w : Int) ∧
      0 ≤ (nbr it oc).2 ∧ (nbr it oc).2 < (h : Int)
  · by_cases hc : 0 ≤ maze (nbr it oc).1.toNat (nbr it oc).2.toNat ∧
        s.dist (nbr it oc).1.toNat (nbr it oc).2.toNat = -1
    · left
      refine ⟨(nbr it oc).1.toNat, (nbr it oc).2.toNat, ?_, ?_, ?_, ?_, hc.1, hc.2, ?_⟩
      · exact Int.toNat_of_nonneg hb.1
      · exact Int.toNat_of_nonneg hb.2.2.1
      · omega
      · omega
      · simp [relax, hb, hc]
    · right
      constructor
      · simp [relax, hb, hc]
      · intro ux uy hx hy hxw hyh hcon
        apply hc
        have hx2 : (nbr it oc).1.toNat = ux := by omega
        have hy2 : (nbr it oc).2.toNat = uy := by omega
        rw [hx2, hy2]
        exact hcon
  · right
    constructor
    · simp only [relax, hb, if_false]
    · intro ux uy hx hy hxw hyh
      exfalso
      apply hb
      refine ⟨by omega, by omega, by omega, by omega⟩

/-! ### Characterization of the seeding scan -/


theorem mem_cells {w h a b : Nat} : (a, b) ∈ cells w h ↔ a < w ∧ b < h := by
  simp [cells, List.mem_flatMap, List.mem_map, List.mem_range]

theorem seedLoop_eq_foldl (maze : Grid) (w h : Nat) :
    seedLoop maze w h =
      (cells w h).foldl (fun s c => seedCell maze s c.1 c.2) initSt := by
  unfold seedLoop cells
  generalize initSt = s0
  induction (List.range w) generalizing s0 with
  | nil => rfl
  | cons a t ih =>
    simp only [List.foldl_cons, List.flatMap_cons, List.foldl_append, List.foldl_map]
    exact ih _

theorem seedFold_dist (maze : Grid) (l : List (Nat × Nat)) (s : St) (a b : Nat) :
    ((l.foldl (fun s c => seedCell maze s c.1 c.2) s).dist a b)
      = if (a, b) ∈ l ∧ maze a b = 1 then 0 else s.dist a b := by
  induction l generalizing s with
  | nil => simp
  | cons c t ih =>
    simp only [List.foldl_cons, ih, List.mem_cons]
    by_cases ht : (a, b) ∈ t ∧ maze a b = 1
    · simp [ht]
    · simp only [ht, if_false]
      by_cases hc : c = (a, b)
      · subst hc
        by_cases hg : maze a b = 1
        · simp only [seedCell]
          rw [if_neg (by omega), if_pos hg]
          simp [update2_same, hg]
        · simp only [seedCell]
          by_cases hw : maze a b < 0
          · simp [hw, hg]
          · simp [hw, hg]
      · have hne : ¬((a, b) = c ∨ (a, b) ∈ t) ∨ ¬maze a b = 1 := by
          rcases not_and_or.mp ht with h1 | h1
          · left; intro hmem
            rcases hmem with h2 | h2
            · exact hc h2.symm
            · exact h1 h2
          · right; exact h1
        have hval : (seedCell maze s c.1 c.2).dist a b = s.dist a b := by
          simp only [seedCell]
          have hne2 : ¬(a = c.1 ∧ b = c.2) := by
            intro ⟨h1, h2⟩
            exact hc (by cases c; simp_all)
          by_cases hw : maze c.1 c.2 < 0
          · simp [hw]
          · by_cases hg : maze c.1 c.2 = 1
            · simp [hw, hg, update2_ne _ _ _ _ _ _ hne2]
            · simp [hw, hg]
        rw [hval]
        rcases hne with h1 | h1
        · rw [if_neg (by tauto)]
        · rw [if_neg (by tauto)]

theorem seedFold_dirs (maze : Grid) (l : List (Nat × Nat)) (s : St) (a b : Nat) :
    ((l.foldl (fun s c => seedCell maze s c.1 c.2) s).dirs a b)
      = if (a, b) ∈ l ∧ maze a b < 0 then '#'
        else if (a, b) ∈ l ∧ maze a b = 1 then 'X' else s.dirs a b := by
  induction l generalizing s with
  | nil => simp
  | cons c t ih =>
    simp only [List.foldl_cons, ih, List.mem_cons]
    by_cases htw : (a, b) ∈ t ∧ maze a b < 0
    · simp [htw]
    · by_cases htg : (a, b) ∈ t ∧ maze a b = 1
      · rw [if_neg (by tauto), if_pos htg, if_neg (by tauto), if_pos (by tauto)]
      · rw [if_neg (by tauto), if_neg (by tauto)]
        by_cases hc : c = (a, b)
        · subst hc
          simp only [seedCell]
          by_cases hw : maze a b < 0
          · simp [hw, update2_same]
          · by_cases hg : maze a b = 1
            · rw [if_neg (by omega), if_pos hg]
              simp [update2_same, hw, hg]
            · simp [hw, hg]
        · have hne2 : ¬(a = c.1 ∧ b = c.2) := by
            intro ⟨h1, h2⟩
            exact hc (by cases c; simp_all)
          have hval : (seedCell maze s c.1 c.2).dirs a b = s.dirs a b := by
            simp only [seedCell]
            by_cases hw : maze c.1 c.2 < 0
            · simp [hw, update2_ne _ _ _ _ _ _ hne2]
            · by_cases hg : maze c.1 c.2 = 1
              · simp [hw, hg, update2_ne _ _ _ _ _ _ hne2]
              · simp [hw, hg]
          rw [hval, if_neg (by tauto), if_neg (by tauto)]

theorem seedFold_q (maze : Grid) (l : List (Nat × Nat)) (s : St) :
    ((l.foldl (fun s c => seedCell maze s c.1 c.2) s).q)
      = s.q ++ l.filterMap fun c =>
          if maze c.1 c.2 = 1 then some ⟨c.1, c.2, (0 : Int)⟩ else none := by
  induction l generalizing s with
  | nil => simp
  | cons c t ih =>
    simp only [List.foldl_cons, ih, List.filterMap_cons]
    by_cases hw : maze c.1 c.2 < 0
    · rw [if_neg (by omega)]
      simp [seedCell, hw]
    · by_cases hg : maze c.1 c.2 = 1
      · rw [if_pos hg]
        simp [seedCell, hw, hg]
      · rw [if_neg hg]
        simp [seedCell, hw, hg]

theorem seed_dist (maze : Grid) (w h a b : Nat) :
    (seedLoop maze w h).dist a b
      = if a < w ∧ b < h ∧ maze a b = 1 then 0 else -1 := by
  rw [seedLoop_eq_foldl, seedFold_dist]
  by_cases hm : a < w ∧ b < h ∧ maze a b = 1
  · rw [if_pos ⟨mem_cells.mpr ⟨hm.1, hm.2.1⟩, hm.2.2⟩, if_pos hm]
  · rw [if_neg (by rw [mem_cells]; tauto), if_neg hm]
    rfl

theorem seed_dirs (maze : Grid) (w h a b : Nat) :
    (seedLoop maze w h).dirs a b
      = if a < w ∧ b < h then
          (if maze a b < 0 then '#' else if maze a b = 1 then 'X' else ' ')
        else ' ' := by
  rw [seedLoop_eq_foldl, seedFold_dirs]
  by_cases hin : a < w ∧ b < h
  · have hmem : (a, b) ∈ cells w h := mem_cells.mpr hin
    by_cases hw : maze a b < 0
    · rw [if_pos ⟨hmem, hw⟩, if_pos hin, if_pos hw]
    · by_cases hg : maze a b = 1
      · rw [if_neg (by tauto), if_pos ⟨hmem, hg⟩, if_pos hin, if_neg hw, if_pos hg]
      · rw [if_neg (by tauto), if_neg (by tauto), if_pos hin, if_neg hw, if_neg hg]
        rfl
  · rw [if_neg (by rw [mem_cells]; tauto), if_neg (by rw [mem_cells]; tauto), if_neg hin]
    rfl

theorem seed_q (maze : Grid) (w h : Nat) :
    (seedLoop maze w h).q
      = (cells w h).filterMap fun c =>
          if maze c.1 c.2 = 1 then some ⟨c.1, c.2, (0 : Int)⟩ else none := by
  rw [seedLoop_eq_foldl, seedFold_q]
  rfl

theorem seed_q_mem (maze : Grid) (w h : Nat) (it : QItem) :
    it ∈ (seedLoop maze w h).q ↔
      it.x < w ∧ it.y < h ∧ maze it.x it.y = 1 ∧ it.d = 0 := by
  rw [seed_q]
  simp only [List.mem_filterMap]
  constructor
  · rintro ⟨c, hc, hsome⟩
    by_cases hg : maze c.1 c.2 = 1
    · rw [if_pos hg] at hsome
      cases hsome
      obtain ⟨cx, cy⟩ := c
      have := mem_cells.mp hc
      exact ⟨this.1, this.2, hg, rfl⟩
    · rw [if_neg hg] at hsome
      cases hsome
  · rintro ⟨hx, hy, hg, hd⟩
    refine ⟨(it.x, it.y), mem_cells.mpr ⟨hx, hy⟩, ?_⟩
    rw [if_pos hg]
    cases it
    simp_all

theorem cells_length (w h : Nat) : (cells w h).length = w * h := by
  unfold cells
  induction w with
  | zero => simp
  | succ n ih =>
    rw [List.range_succ, List.flatMap_append, List.length_append, ih]
    simp [Nat.succ_mul]

theorem seed_q_length (maze : Grid) (w h : Nat) :
    (seedLoop maze w h).q.length ≤ w * h := by
  rw [seed_q]
  calc ((cells w h).filterMap _).length ≤ (cells w h).length :=
        List.length_filterMap_le _ _
    _ = w * h := cells_length w h

/-! ## Helper lemmas about reachability, adjacency and sorted queues -/

theorem reach_inB {maze : Grid} {w h x y n : Nat}
    (hr : Reach maze w h x y n) : x < w ∧ y < h := by
  cases hr with
  | goal hx hy _ => exact ⟨hx, hy⟩
  | step hx hy _ _ _ => exact ⟨hx, hy⟩

theorem reach_open {maze : Grid} {w h x y n : Nat}
    (hr : Reach maze w h x y n) : 0 ≤ maze x y := by
  cases hr with
  | goal _ _ hg => omega
  | step _ _ ho _ _ => exact ho

theorem reach_goal_exists {maze : Grid} {w h x y n : Nat}
    (hr : Reach maze w h x y n) :
    ∃ gx gy : Nat, gx < w ∧ gy < h ∧ maze gx gy = 1 := by
  induction hr with
  | goal hx hy hg => exact ⟨_, _, hx, hy, hg⟩
  | step _ _ _ _ _ ih => exact ih

theorem adj_symm {x y x2 y2 : Nat} (h : Adj x y x2 y2) : Adj x2 y2 x y := by
  unfold Adj at *
  omega

/-- The facts about the source's offset/char pairing needed everywhere:
each char is an arrow, its `build_path` offset is the exact inverse of
the flood offset, the offset is nonzero, and the char is none of the
sentinel tags. -/
theorem offset_facts : ∀ oc ∈ dirOffsets,
    oc.2 ∈ arrowChars ∧ deltaOf oc.2 = (-oc.1.1, -oc.1.2) ∧
    ¬(oc.1.1 = 0 ∧ oc.1.2 = 0) ∧ oc.2 ≠ '#' ∧ oc.2 ≠ ' ' ∧ oc.2 ≠ 'X' := by
  decide

theorem adj_of_offset {x0 y0 ux uy : Nat} (oc : (Int × Int) × Char)
    (hoc : oc ∈ dirOffsets)
    (hx : (ux : Int) = (x0 : Int) + oc.1.1) (hy : (uy : Int) = (y0 : Int) + oc.1.2) :
    Adj ux uy x0 y0 := by
  unfold Adj
  simp only [dirOffsets, List.mem_cons, List.not_mem_nil, or_false] at hoc
  rcases hoc with rfl | rfl | rfl | rfl <;> simp_all <;> omega

theorem adj_to_offset {x0 y0 x2 y2 : Nat} (h : Adj x0 y0 x2 y2) :
    ∃ oc ∈ dirOffsets, (x2 : Int) = (x0 : Int) + oc.1.1 ∧
      (y2 : Int) = (y0 : Int) + oc.1.2 := by
  unfold Adj at h
  rcases h with ⟨h1, h2⟩ | ⟨h1, h2⟩ | ⟨h1, h2⟩ | ⟨h1, h2⟩
  · exact ⟨((1, 0), '^'), by simp [dirOffsets], by simp; omega, by simp; omega⟩
  · exact ⟨((-1, 0), 'v'), by simp [dirOffsets], by simp; omega, by simp; omega⟩
  · exact ⟨((0, 1), '<'), by simp [dirOffsets], by simp; omega, by simp; omega⟩
  · exact ⟨((0, -1), '>'), by simp [dirOffsets], by simp; omega, by simp; omega⟩

theorem chain'_head_le {a : QItem} {l : List QItem}
    (h : List.Chain' (fun p q2 : QItem => p.d ≤ q2.d) (a :: l)) :
    ∀ b ∈ l, a.d ≤ b.d := by
  induction l generalizing a with
  | nil => intro b hb; cases hb
  | cons c t ih =>
    intro b hb
    have hac : a.d ≤ c.d := (List.chain'_cons.mp h).1
    rcases List.mem_cons.mp hb with rfl | hb
    · exact hac
    · exact le_trans hac (ih (List.chain'_cons.mp h).2 b hb)

theorem chain'_of_const {l : List QItem} (h : ∀ it ∈ l, it.d = 0) :
    List.Chain' (fun p q2 : QItem => p.d ≤ q2.d) l := by
  induction l with
  | nil => exact List.chain'_nil
  | cons a t ih =>
    cases t with
    | nil => simp
    | cons b t2 =>
      rw [List.chain'_cons]
      refine ⟨?_, ih ?_⟩
      · rw [h a (by simp), h b (by simp)]
      · intro it hit
        exact h it (by simp [hit])

/-! ## The loop invariant -/


theorem arrow_ne_hash {c : Char} (hc : c ∈ arrowChars) : c ≠ '#' := by
  fin_cases hc <;> decide

theorem arrow_ne_space {c : Char} (hc : c ∈ arrowChars) : c ≠ ' ' := by
  fin_cases hc <;> decide

theorem arrow_ne_X {c : Char} (hc : c ∈ arrowChars) : c ≠ 'X' := by
  fin_cases hc <;> decide

/-- An arrow-tagged in-bounds cell has distance at least 1 under the
trichotomy invariant (stated for `MInv`; the `Inv` version is identical). -/
theorem tri_arrow_pos {maze : Grid} {w h x0 y0 : Nat} {d0 : Int}
    {D0 : Nat → Nat → Int} {s : St} (hm : MInv maze w h x0 y0 d0 D0 s)
    {x y : Nat} (hx : x < w) (hy : y < h) (harr : s.dirs x y ∈ arrowChars) :
    1 ≤ s.dist x y := by
  rcases hm.tri x y hx hy with ⟨_, hc | hc⟩ | ⟨_, hc⟩ | ⟨hd, _⟩
  · exact absurd hc (arrow_ne_hash harr)
  · exact absurd hc (arrow_ne_space harr)
  · exact absurd hc (arrow_ne_X harr)
  · exact hd

/-- Relaxing one neighbour of the popped item preserves the
mid-iteration invariant. -/
theorem relax_pres (maze : Grid) (w h : Nat) (x0 y0 : Nat) (d0 : Int)
    (D0 : Nat → Nat → Int)
    (hx0 : x0 < w) (hy0 : y0 < h) (hd0 : 0 ≤ d0)
    (hR0 : Reach maze w h x0 y0 d0.toNat)
    (hD0 : D0 x0 y0 = d0)
    (hF0 : FrontierAt maze w h d0 D0)
    (oc : (Int × Int) × Char) (hoc : oc ∈ dirOffsets)
    (s : St) (hm : MInv maze w h x0 y0 d0 D0 s) :
    MInv maze w h x0 y0 d0 D0 (relax maze w h ⟨x0, y0, d0⟩ s oc) := by
  rcases relax_spec maze w h ⟨x0, y0, d0⟩ s oc with
    ⟨ux, uy, hux, huy, huw, huh, hopen, hunass, heq⟩ | ⟨heq, _⟩
  swap
  · rw [heq]; exact hm
  obtain ⟨harrow, hdelta, hnz, hnotHash, hnotSpace, hnotX⟩ := offset_facts oc hoc
  replace hux : (ux : Int) = (x0 : Int) + oc.1.1 := hux
  replace huy : (uy : Int) = (y0 : Int) + oc.1.2 := huy
  replace heq : relax maze w h ⟨x0, y0, d0⟩ s oc =
      { dist := update2 s.dist ux uy (d0 + 1)
        dirs := update2 s.dirs ux uy oc.2
        q := s.q ++ [⟨ux, uy, d0 + 1⟩] } := heq
  have hne0 : ¬(ux = x0 ∧ uy = y0) := by
    rintro ⟨rfl, rfl⟩
    exact hnz ⟨by omega, by omega⟩
  have hne0' : ¬(x0 = ux ∧ y0 = uy) := by
    intro hc
    exact hne0 ⟨hc.1.symm, hc.2.symm⟩
  have hdist0 : s.dist x0 y0 = d0 := by
    rw [hm.mono x0 y0 (by rw [hD0]; omega), hD0]
  have hD0u : D0 ux uy = -1 := by
    by_contra hc
    rw [hm.mono ux uy hc] at hunass
    exact hc hunass
  have hnotgoal : ¬(maze ux uy = 1) := by
    intro hg
    have := hm.goalZero ux uy huw huh hg
    omega
  rw [heq]
  refine ⟨?_, ?_, ?_, ?_, ?_, ?_, ?_, ?_, ?_, ?_, ?_, ?_⟩
  · -- qmem
    intro it hit
    rw [List.mem_append] at hit
    rcases hit with hit | hit
    · obtain ⟨h1, h2, h3, h4, h5⟩ := hm.qmem it hit
      refine ⟨h1, h2, h3, ?_, h5⟩
      show update2 s.dist ux uy (d0 + 1) it.x it.y = it.d
      rw [update2_ne]
      · exact h4
      · rintro ⟨hxx, hyy⟩
        rw [hxx, hyy] at h4
        rw [hunass] at h4
        omega
    · rw [List.mem_singleton] at hit
      subst hit
      exact ⟨huw, huh, hopen, update2_same _ _ _ _, by show (0:Int) ≤ d0 + 1; omega⟩
  · -- qsorted
    refine List.chain'_append.mpr ⟨hm.qsorted, by simp, ?_⟩
    intro a ha b hb
    simp only [List.head?_cons, Option.mem_def, Option.some.injEq] at hb
    subst hb
    have := hm.qband2 a (List.mem_of_mem_getLast? ha)
    show a.d ≤ d0 + 1
    omega
  · -- qband2
    intro it hit
    rw [List.mem_append] at hit
    rcases hit with hit | hit
    · exact hm.qband2 it hit
    · rw [List.mem_singleton] at hit
      subst hit
      exact ⟨by show d0 ≤ d0 + 1; omega, by show d0 + 1 ≤ d0 + 1; omega⟩
  · -- oob
    intro x y hxy
    have hne : ¬(x = ux ∧ y = uy) := by
      rintro ⟨rfl, rfl⟩
      exact hxy ⟨huw, huh⟩
    show update2 s.dist ux uy (d0 + 1) x y = -1 ∧ update2 s.dirs ux uy oc.2 x y = ' '
    rw [update2_ne _ _ _ _ _ _ hne, update2_ne _ _ _ _ _ _ hne]
    exact hm.oob x y hxy
  · -- wallIff
    intro x y hx hy
    show update2 s.dirs ux uy oc.2 x y = '#' ↔ maze x y < 0
    by_cases hxy : x = ux ∧ y = uy
    · obtain ⟨rfl, rfl⟩ := hxy
      rw [update2_same]
      exact iff_of_false hnotHash (by omega)
    · rw [update2_ne _ _ _ _ _ _ hxy]
      exact hm.wallIff x y hx hy
  · -- goalIff
    intro x y hx hy
    show update2 s.dirs ux uy oc.2 x y = 'X' ↔ maze x y = 1
    by_cases hxy : x = ux ∧ y = uy
    · obtain ⟨rfl, rfl⟩ := hxy
      rw [update2_same]
      exact iff_of_false hnotX hnotgoal
    · rw [update2_ne _ _ _ _ _ _ hxy]
      exact hm.goalIff x y hx hy
  · -- goalZero
    intro x y hx hy hg
    show update2 s.dist ux uy (d0 + 1) x y = 0
    by_cases hxy : x = ux ∧ y = uy
    · obtain ⟨rfl, rfl⟩ := hxy
      exact absurd hg hnotgoal
    · rw [update2_ne _ _ _ _ _ _ hxy]
      exact hm.goalZero x y hx hy hg
  · -- tri
    intro x y hx hy
    show (update2 s.dist ux uy (d0 + 1) x y = -1 ∧
        (update2 s.dirs ux uy oc.2 x y = '#' ∨
          update2 s.dirs ux uy oc.2 x y = ' ')) ∨
      (update2 s.dist ux uy (d0 + 1) x y = 0 ∧
        update2 s.dirs ux uy oc.2 x y = 'X') ∨
      (1 ≤ update2 s.dist ux uy (d0 + 1) x y ∧
        update2 s.dirs ux uy oc.2 x y ∈ arrowChars)
    by_cases hxy : x = ux ∧ y = uy
    · obtain ⟨rfl, rfl⟩ := hxy
      right; right
      rw [update2_same, update2_same]
      exact ⟨by omega, harrow⟩
    · rw [update2_ne _ _ _ _ _ _ hxy, update2_ne _ _ _ _ _ _ hxy]
      exact hm.tri x y hx hy
  · -- distExact
    intro x y hx hy n hn
    replace hn : update2 s.dist ux uy (d0 + 1) x y = (n : Int) := hn
    by_cases hxy : x = ux ∧ y = uy
    · obtain ⟨rfl, rfl⟩ := hxy
      rw [update2_same] at hn
      have hne2 : n = d0.toNat + 1 := by omega
      subst hne2
      constructor
      · exact Reach.step huw huh hopen (adj_of_offset oc hoc hux huy) hR0
      · intro m hmlt hr
        have := hF0 x y huw huh hD0u m hr
        omega
    · rw [update2_ne _ _ _ _ _ _ hxy] at hn
      exact hm.distExact x y hx hy n hn
  · -- arrow
    intro x y hx hy harr
    replace harr : update2 s.dirs ux uy oc.2 x y ∈ arrowChars := harr
    show ∃ tx ty : Nat, tx < w ∧ ty < h ∧
      (tx : Int) = (x : Int) + (deltaOf (update2 s.dirs ux uy oc.2 x y)).1 ∧
      (ty : Int) = (y : Int) + (deltaOf (update2 s.dirs ux uy oc.2 x y)).2 ∧
      update2 s.dist ux uy (d0 + 1) tx ty = update2 s.dist ux uy (d0 + 1) x y - 1
    by_cases hxy : x = ux ∧ y = uy
    · obtain ⟨rfl, rfl⟩ := hxy
      refine ⟨x0, y0, hx0, hy0, ?_, ?_, ?_⟩
      · rw [update2_same, hdelta]
        simp only [Prod.fst]
        omega
      · rw [update2_same, hdelta]
        simp only [Prod.snd]
        omega
      · rw [update2_same, update2_ne _ _ _ _ _ _ hne0', hdist0]
        omega
    · rw [update2_ne _ _ _ _ _ _ hxy] at harr ⊢
      obtain ⟨tx, ty, htxw, htyh, hex, hey, hdist⟩ := hm.arrow x y hx hy harr
      have hd1 : 1 ≤ s.dist x y := tri_arrow_pos hm hx hy harr
      have htne : ¬(tx = ux ∧ ty = uy) := by
        rintro ⟨rfl, rfl⟩
        rw [hunass] at hdist
        omega
      refine ⟨tx, ty, htxw, htyh, hex, hey, ?_⟩
      rw [update2_ne _ _ _ _ _ _ htne, update2_ne _ _ _ _ _ _ hxy]
      exact hdist
  · -- mono
    intro x y hne
    by_cases hxy : x = ux ∧ y = uy
    · obtain ⟨rfl, rfl⟩ := hxy
      exact absurd hD0u hne
    · show update2 s.dist ux uy (d0 + 1) x y = D0 x y
      rw [update2_ne _ _ _ _ _ _ hxy]
      exact hm.mono x y hne
  · -- processed2
    intro x y hx hy hdge
    replace hdge : 0 ≤ update2 s.dist ux uy (d0 + 1) x y := hdge
    by_cases hxy : x = ux ∧ y = uy
    · obtain ⟨rfl, rfl⟩ := hxy
      left
      exact ⟨⟨x, y, d0 + 1⟩, List.mem_append_right _ (by simp), rfl, rfl⟩
    · rw [update2_ne _ _ _ _ _ _ hxy] at hdge
      rcases hm.processed2 x y hx hy hdge with ⟨it, hit, he⟩ | hp | hp
      · exact Or.inl ⟨it, List.mem_append_left _ hit, he⟩
      · exact Or.inr (Or.inl hp)
      · refine Or.inr (Or.inr ?_)
        intro x2 y2 hx2 hy2 ho2 hadj
        show 0 ≤ update2 s.dist ux uy (d0 + 1) x2 y2
        by_cases hxy2 : x2 = ux ∧ y2 = uy
        · obtain ⟨rfl, rfl⟩ := hxy2
          rw [update2_same]
          omega
        · rw [update2_ne _ _ _ _ _ _ hxy2]
          exact hp x2 y2 hx2 hy2 ho2 hadj

/-! ## Relaxation folds: invariant, assignment monotonicity, measure -/

theorem reach_succ {maze : Grid} {w h x y k : Nat}
    (hr : Reach maze w h x y (k + 1)) :
    ∃ x2 y2 : Nat, x < w ∧ y < h ∧ 0 ≤ maze x y ∧ Adj x y x2 y2 ∧
      Reach maze w h x2 y2 k := by
  cases hr with
  | step hx hy ho hadj hr2 => exact ⟨_, _, hx, hy, ho, hadj, hr2⟩

theorem reach_zero {maze : Grid} {w h x y : Nat}
    (hr : Reach maze w h x y 0) : maze x y = 1 := by
  cases hr with
  | goal _ _ hg => exact hg

theorem foldl_relax_pres (maze : Grid) (w h : Nat) (x0 y0 : Nat) (d0 : Int)
    (D0 : Nat → Nat → Int)
    (hx0 : x0 < w) (hy0 : y0 < h) (hd0 : 0 ≤ d0)
    (hR0 : Reach maze w h x0 y0 d0.toNat)
    (hD0 : D0 x0 y0 = d0)
    (hF0 : FrontierAt maze w h d0 D0) :
    ∀ (l : List ((Int × Int) × Char)), (∀ oc ∈ l, oc ∈ dirOffsets) →
    ∀ s : St, MInv maze w h x0 y0 d0 D0 s →
    MInv maze w h x0 y0 d0 D0 (l.foldl (relax maze w h ⟨x0, y0, d0⟩) s) := by
  intro l
  induction l with
  | nil => intro _ s hm; exact hm
  | cons a t ih =>
    intro hsub s hm
    exact ih (fun oc hoc => hsub oc (List.mem_cons_of_mem a hoc))
      _ (relax_pres maze w h x0 y0 d0 D0 hx0 hy0 hd0 hR0 hD0 hF0 a
        (hsub a (List.mem_cons_self a t)) s hm)

theorem relax_keeps_assigned (maze : Grid) (w h : Nat) (it : QItem) (s : St)
    (oc : (Int × Int) × Char) (hd0 : 0 ≤ it.d) (x y : Nat)
    (hge : 0 ≤ s.dist x y) :
    0 ≤ (relax maze w h it s oc).dist x y := by
  rcases relax_spec maze w h it s oc with
    ⟨ux, uy, _, _, _, _, _, hunass, heq⟩ | ⟨heq, _⟩
  · rw [heq]
    show 0 ≤ update2 s.dist ux uy (it.d + 1) x y
    by_cases hxy : x = ux ∧ y = uy
    · obtain ⟨rfl, rfl⟩ := hxy
      rw [update2_same]
      omega
    · rw [update2_ne _ _ _ _ _ _ hxy]
      exact hge
  · rw [heq]
    exact hge

theorem foldl_keeps_assigned (maze : Grid) (w h : Nat) (it : QItem)
    (hd0 : 0 ≤ it.d) (l : List ((Int × Int) × Char)) :
    ∀ s : St, ∀ x y : Nat, 0 ≤ s.dist x y →
    0 ≤ (l.foldl (relax maze w h it) s).dist x y := by
  induction l with
  | nil => intro s x y hge; exact hge
  | cons a t ih =>
    intro s x y hge
    exact ih _ x y (relax_keeps_assigned maze w h it s a hd0 x y hge)

theorem relax_own_assigned (maze : Grid) (w h : Nat) (x0 y0 : Nat) (d0 : Int)
    (D0 : Nat → Nat → Int) (s : St) (oc : (Int × Int) × Char)
    (hm : MInv maze w h x0 y0 d0 D0 s) (hd0 : 0 ≤ d0)
    (ux uy : Nat) (hx : (ux : Int) = (x0 : Int) + oc.1.1)
    (hy : (uy : Int) = (y0 : Int) + oc.1.2)
    (hxw : ux < w) (hyh : uy < h) (ho : 0 ≤ maze ux uy) :
    0 ≤ (relax maze w h ⟨x0, y0, d0⟩ s oc).dist ux uy := by
  rcases relax_spec maze w h ⟨x0, y0, d0⟩ s oc with
    ⟨vx, vy, hvx, hvy, _, _, _, _, heq⟩ | ⟨heq, hno⟩
  · replace hvx : (vx : Int) = (x0 : Int) + oc.1.1 := hvx
    replace hvy : (vy : Int) = (y0 : Int) + oc.1.2 := hvy
    have hveq : vx = ux ∧ vy = uy := by omega
    obtain ⟨rfl, rfl⟩ := hveq
    rw [heq]
    show (0 : Int) ≤ update2 s.dist vx vy (d0 + 1) vx vy
    rw [update2_same]
    omega
  · rw [heq]
    have hne : ¬(s.dist ux uy = -1) := by
      intro hc
      exact hno ux uy hx hy hxw hyh ⟨ho, hc⟩
    rcases hm.tri ux uy hxw hyh with ⟨hd, _⟩ | ⟨hd, _⟩ | ⟨hd, _⟩ <;> omega

/-- After folding a sub-list of offsets over `relax`, every neighbour whose
offset occurs in the list is assigned (in bounds and non-wall assumed). -/
theorem foldl_neighbors (maze : Grid) (w h : Nat) (x0 y0 : Nat) (d0 : Int)
    (D0 : Nat → Nat → Int)
    (hx0 : x0 < w) (hy0 : y0 < h) (hd0 : 0 ≤ d0)
    (hR0 : Reach maze w h x0 y0 d0.toNat)
    (hD0 : D0 x0 y0 = d0)
    (hF0 : FrontierAt maze w h d0 D0) :
    ∀ (l : List ((Int × Int) × Char)), (∀ oc ∈ l, oc ∈ dirOffsets) →
    ∀ s : St, MInv maze w h x0 y0 d0 D0 s →
    ∀ oc ∈ l, ∀ ux uy : Nat, (ux : Int) = (x0 : Int) + oc.1.1 →
      (uy : Int) = (y0 : Int) + oc.1.2 → ux < w → uy < h → 0 ≤ maze ux uy →
      0 ≤ ((l.foldl (relax maze w h ⟨x0, y0, d0⟩) s).dist ux uy) := by
  intro l
  induction l with
  | nil => intro _ _ _ oc hoc; cases hoc
  | cons a t ih =>
    intro hsub s hm oc hoc ux uy hx hy hxw hyh ho
    rcases List.mem_cons.mp hoc with rfl | hoc2
    · show 0 ≤ (t.foldl _ (relax maze w h ⟨x0, y0, d0⟩ s oc)).dist ux uy
      exact foldl_keeps_assigned maze w h ⟨x0, y0, d0⟩ hd0 t _ ux uy
        (relax_own_assigned maze w h x0 y0 d0 D0 s oc hm hd0
          ux uy hx hy hxw hyh ho)
    · exact ih (fun oc2 hoc2 => hsub oc2 (List.mem_cons_of_mem a hoc2))
        _ (relax_pres maze w h x0 y0 d0 D0 hx0 hy0 hd0 hR0 hD0 hF0 a
          (hsub a (List.mem_cons_self a t)) s hm)
        oc hoc2 ux uy hx hy hxw hyh ho


theorem relax_mu (maze : Grid) (w h : Nat) (it : QItem) (s : St)
    (oc : (Int × Int) × Char) (hd0 : 0 ≤ it.d) :
    mu w h (relax maze w h it s oc) ≤ mu w h s := by
  rcases relax_spec maze w h it s oc with
    ⟨ux, uy, _, _, hxw, hyh, _, hunass, heq⟩ | ⟨heq, _⟩
  · rw [heq]
    have hmem : (ux, uy) ∈ (Finset.range w ×ˢ Finset.range h).filter
        (fun c => s.dist c.1 c.2 = -1) := by
      simp only [Finset.mem_filter, Finset.mem_product, Finset.mem_range]
      exact ⟨⟨hxw, hyh⟩, hunass⟩
    have hsub : (Finset.range w ×ˢ Finset.range h).filter
        (fun c => update2 s.dist ux uy (it.d + 1) c.1 c.2 = -1) ⊆
        ((Finset.range w ×ˢ Finset.range h).filter
          (fun c => s.dist c.1 c.2 = -1)).erase (ux, uy) := by
      intro c hc
      simp only [Finset.mem_filter, Finset.mem_product, Finset.mem_range] at hc
      have hcne : ¬(c.1 = ux ∧ c.2 = uy) := by
        rintro ⟨h1, h2⟩
        rw [h1, h2, update2_same] at hc
        omega
      rw [update2_ne _ _ _ _ _ _ hcne] at hc
      rw [Finset.mem_erase]
      refine ⟨?_, ?_⟩
      · intro hce
        apply hcne
        rw [hce]
        exact ⟨rfl, rfl⟩
      · simp only [Finset.mem_filter, Finset.mem_product, Finset.mem_range]
        exact ⟨⟨hc.1.1, hc.1.2⟩, hc.2⟩
    have hcard : unassigned w h (update2 s.dist ux uy (it.d + 1)) ≤
        unassigned w h s.dist - 1 := by
      calc unassigned w h (update2 s.dist ux uy (it.d + 1)) ≤
          (((Finset.range w ×ˢ Finset.range h).filter
            (fun c => s.dist c.1 c.2 = -1)).erase (ux, uy)).card :=
            Finset.card_le_card hsub
        _ = unassigned w h s.dist - 1 := Finset.card_erase_of_mem hmem
    have hpos : 1 ≤ unassigned w h s.dist :=
      Nat.pos_of_ne_zero (Finset.card_ne_zero_of_mem hmem)
    show 4 * unassigned w h (update2 s.dist ux uy (it.d + 1)) +
      (s.q ++ [(⟨ux, uy, it.d + 1⟩ : QItem)]).length ≤ mu w h s
    rw [List.length_append]
    simp only [List.length_singleton]
    unfold mu
    omega
  · rw [heq]

theorem foldl_mu (maze : Grid) (w h : Nat) (it : QItem) (hd0 : 0 ≤ it.d)
    (l : List ((Int × Int) × Char)) :
    ∀ s : St, mu w h (l.foldl (relax maze w h it) s) ≤ mu w h s := by
  induction l with
  | nil => intro s; exact le_refl _
  | cons a t ih =>
    intro s
    exact le_trans (ih _) (relax_mu maze w h it s a hd0)

/-! ## One full loop iteration -/

/-- Popping the queue head and relaxing its four neighbours preserves the
main invariant and strictly decreases the termination measure. -/
theorem iterate_pres (maze : Grid) (w h : Nat) (s : St)
    (hinv : Inv maze w h s) (it0 : QItem) (rest : List QItem)
    (hq : s.q = it0 :: rest) :
    Inv maze w h (stepItem maze w h it0 { s with q := rest }) ∧
    mu w h (stepItem maze w h it0 { s with q := rest }) + 1 ≤ mu w h s := by
  obtain ⟨x0, y0, d0⟩ := it0
  obtain ⟨hx0, hy0, hopen0, hdist0, hd0⟩ :=
    hinv.qmem ⟨x0, y0, d0⟩ (by rw [hq]; exact List.mem_cons_self _ _)
  replace hx0 : x0 < w := hx0
  replace hy0 : y0 < h := hy0
  replace hopen0 : 0 ≤ maze x0 y0 := hopen0
  replace hdist0 : s.dist x0 y0 = d0 := hdist0
  replace hd0 : 0 ≤ d0 := hd0
  have hR0 : Reach maze w h x0 y0 d0.toNat :=
    (hinv.distExact x0 y0 hx0 hy0 d0.toNat (by rw [hdist0]; omega)).1
  have hF0 : FrontierAt maze w h d0 s.dist := by
    intro x y hx hy hun k hr
    obtain ⟨a, hhead, hle⟩ := hinv.frontier x y hx hy hun k hr
    rw [hq, List.head?_cons] at hhead
    obtain rfl : (⟨x0, y0, d0⟩ : QItem) = a := Option.some.inj hhead
    replace hle : d0 + 1 ≤ (k : Int) := hle
    exact hle
  have hminv : MInv maze w h x0 y0 d0 s.dist { s with q := rest } := by
    refine ⟨?_, ?_, ?_, ?_, ?_, ?_, ?_, ?_, ?_, ?_, ?_, ?_⟩
    · intro it hit
      exact hinv.qmem it (by rw [hq]; exact List.mem_cons_of_mem _ hit)
    · have hc := hinv.qsorted
      rw [hq] at hc
      exact hc.tail
    · intro it hit
      have hc := hinv.qsorted
      rw [hq] at hc
      refine ⟨chain'_head_le hc it hit, ?_⟩
      have := hinv.qband ⟨x0, y0, d0⟩ (by rw [hq, List.head?_cons]) it
        (by rw [hq]; exact List.mem_cons_of_mem _ hit)
      exact this
    · exact hinv.oob
    · exact hinv.wallIff
    · exact hinv.goalIff
    · exact hinv.goalZero
    · exact hinv.tri
    · exact hinv.distExact
    · exact hinv.arrow
    · intro x y _
      rfl
    · intro x y hx hy hge
      rcases hinv.processed x y hx hy hge with ⟨it, hit, he⟩ | hnb
      · rw [hq] at hit
        rcases List.mem_cons.mp hit with rfl | hit2
        · exact Or.inr (Or.inl ⟨he.1.symm, he.2.symm⟩)
        · exact Or.inl ⟨it, hit2, he⟩
      · exact Or.inr (Or.inr hnb)
  have hm4 : MInv maze w h x0 y0 d0 s.dist
      (stepItem maze w h ⟨x0, y0, d0⟩ { s with q := rest }) :=
    foldl_relax_pres maze w h x0 y0 d0 s.dist hx0 hy0 hd0 hR0 hdist0 hF0
      dirOffsets (fun _ hh => hh) _ hminv
  have hnb4 := foldl_neighbors maze w h x0 y0 d0 s.dist hx0 hy0 hd0 hR0
    hdist0 hF0 dirOffsets (fun _ hh => hh) _ hminv
  set s4 := stepItem maze w h ⟨x0, y0, d0⟩ { s with q := rest } with hs4
  have hmono4 : ∀ x y : Nat, s4.dist x y = -1 → s.dist x y = -1 := by
    intro x y hc
    by_contra hs
    have h2 := hm4.mono x y hs
    rw [hc] at h2
    exact hs h2.symm
  have hproc : ∀ x y : Nat, x < w → y < h → 0 ≤ s4.dist x y →
      (∃ it ∈ s4.q, it.x = x ∧ it.y = y) ∨
      (∀ x2 y2 : Nat, x2 < w → y2 < h → 0 ≤ maze x2 y2 → Adj x y x2 y2 →
        0 ≤ s4.dist x2 y2) := by
    intro x y hx hy hge
    rcases hm4.processed2 x y hx hy hge with hc | ⟨rfl, rfl⟩ | hnb
    · exact Or.inl hc
    · refine Or.inr ?_
      intro x2 y2 hx2 hy2 ho2 hadj
      obtain ⟨oc, hoc, he1, he2⟩ := adj_to_offset hadj
      exact hnb4 oc hoc x2 y2 he1 he2 hx2 hy2 ho2
    · exact Or.inr hnb
  have hfront : ∀ x y : Nat, x < w → y < h → s4.dist x y = -1 →
      ∀ k : Nat, Reach maze w h x y k →
      ∃ a : QItem, s4.q.head? = some a ∧ a.d + 1 ≤ (k : Int) := by
    intro x y hx hy hun k hr
    have huns := hmono4 x y hun
    have hk1 := hF0 x y hx hy huns k hr
    cases hq4 : s4.q with
    | nil =>
      exfalso
      have main : ∀ k2 : Nat, ∀ x2 y2 : Nat, x2 < w → y2 < h →
          s4.dist x2 y2 = -1 → ¬Reach maze w h x2 y2 k2 := by
        intro k2
        induction k2 using Nat.strong_induction_on with
        | _ k2 ih =>
          intro x2 y2 hx2 hy2 hun2 hr2
          have huns2 := hmono4 x2 y2 hun2
          have hge1 := hF0 x2 y2 hx2 hy2 huns2 k2 hr2
          obtain ⟨k3, rfl⟩ : ∃ k3, k2 = k3 + 1 := ⟨k2 - 1, by omega⟩
          obtain ⟨x3, y3, _, _, ho2, hadj, hr3⟩ := reach_succ hr2
          by_cases hv : s4.dist x3 y3 = -1
          · exact ih k3 (by omega) x3 y3 (reach_inB hr3).1 (reach_inB hr3).2 hv hr3
          · have hge3 : 0 ≤ s4.dist x3 y3 := by
              rcases hm4.tri x3 y3 (reach_inB hr3).1 (reach_inB hr3).2 with
                ⟨hd, _⟩ | ⟨hd, _⟩ | ⟨hd, _⟩ <;> omega
            rcases hproc x3 y3 (reach_inB hr3).1 (reach_inB hr3).2 hge3 with
              ⟨it, hit, _⟩ | hnb
            · rw [hq4] at hit
              cases hit
            · have := hnb x2 y2 hx2 hy2 ho2 (adj_symm hadj)
              omega
      exact main k x y hx hy hun hr
    | cons a t =>
      refine ⟨a, rfl, ?_⟩
      have hband := hm4.qband2 a (by rw [hq4]; exact List.mem_cons_self a t)
      by_cases had : a.d = d0
      · omega
      · have had1 : a.d = d0 + 1 := by omega
        by_contra hlt
        push_neg at hlt
        obtain ⟨k3, rfl⟩ : ∃ k3, k = k3 + 1 := ⟨k - 1, by omega⟩
        have hk3 : (k3 : Int) = d0 := by omega
        obtain ⟨x3, y3, _, _, ho2, hadj, hr3⟩ := reach_succ hr
        by_cases hv : s4.dist x3 y3 = -1
        · have huns3 := hmono4 x3 y3 hv
          have := hF0 x3 y3 (reach_inB hr3).1 (reach_inB hr3).2 huns3 k3 hr3
          omega
        · have hge3 : 0 ≤ s4.dist x3 y3 := by
            rcases hm4.tri x3 y3 (reach_inB hr3).1 (reach_inB hr3).2 with
              ⟨hd, _⟩ | ⟨hd, _⟩ | ⟨hd, _⟩ <;> omega
          obtain ⟨n2, hn2⟩ : ∃ n2 : Nat, s4.dist x3 y3 = (n2 : Int) :=
            ⟨(s4.dist x3 y3).toNat, by omega⟩
          have hex := hm4.distExact x3 y3 (reach_inB hr3).1 (reach_inB hr3).2 n2 hn2
          have hn2le : n2 ≤ k3 := by
            by_contra hgt
            exact hex.2 k3 (by omega) hr3
          rcases hproc x3 y3 (reach_inB hr3).1 (reach_inB hr3).2 hge3 with
            ⟨it, hit, he1, he2⟩ | hnb
          · obtain ⟨_, _, _, hdq, _⟩ := hm4.qmem it hit
            rw [he1, he2, hn2] at hdq
            have hge_ad : a.d ≤ it.d := by
              rw [hq4] at hit
              rcases List.mem_cons.mp hit with rfl | hit2
              · exact le_refl _
              · have hchain := hm4.qsorted
                rw [hq4] at hchain
                exact chain'_head_le hchain it hit2
            omega
          · have := hnb x y hx hy ho2 (adj_symm hadj)
            omega
  have hqband : ∀ a : QItem, s4.q.head? = some a → ∀ it ∈ s4.q, it.d ≤ a.d + 1 := by
    intro a hhead it hit
    have h1 := hm4.qband2 a (List.mem_of_mem_head? hhead)
    have h2 := hm4.qband2 it hit
    omega
  refine ⟨⟨hm4.qmem, hm4.qsorted, hqband, hm4.oob, hm4.wallIff, hm4.goalIff,
    hm4.goalZero, hm4.tri, hm4.distExact, hm4.arrow, hproc, hfront⟩, ?_⟩
  have hmu1 : mu w h s4 ≤ mu w h { s with q := rest } :=
    foldl_mu maze w h ⟨x0, y0, d0⟩ hd0 dirOffsets _
  have hmu2 : mu w h { s with q := rest } + 1 = mu w h s := by
    show 4 * unassigned w h s.dist + rest.length + 1 =
      4 * unassigned w h s.dist + s.q.length
    rw [hq, List.length_cons]
    omega
  exact hmu2 ▸ Nat.add_le_add_right hmu1 1

/-! ## Termination and the final state -/

theorem loop_total (maze : Grid) (w h : Nat) :
    ∀ fuel : Nat, ∀ s : St, Inv maze w h s → mu w h s ≤ fuel →
    ∃ s2 : St, loopFuel maze w h fuel s = some s2 ∧ Inv maze w h s2 ∧
      s2.q = [] := by
  intro fuel
  induction fuel with
  | zero =>
    intro s hinv hmu
    cases hq : s.q with
    | nil => exact ⟨s, by simp [loopFuel, hq], hinv, hq⟩
    | cons it rest =>
      exfalso
      have : s.q.length ≤ mu w h s := by
        unfold mu
        omega
      rw [hq] at this
      simp [List.length_cons] at this
      omega
  | succ n ih =>
    intro s hinv hmu
    cases hq : s.q with
    | nil => exact ⟨s, by simp [loopFuel, hq], hinv, hq⟩
    | cons it rest =>
      obtain ⟨hinv2, hdec⟩ := iterate_pres maze w h s hinv it rest hq
      obtain ⟨s2, he, hi2, hq2⟩ := ih _ hinv2 (by omega)
      refine ⟨s2, ?_, hi2, hq2⟩
      show loopFuel maze w h (n + 1) s = some s2
      simp only [loopFuel, hq]
      exact he

theorem seed_inv (maze : Grid) (w h : Nat) : Inv maze w h (seedLoop maze w h) := by
  refine ⟨?_, ?_, ?_, ?_, ?_, ?_, ?_, ?_, ?_, ?_, ?_, ?_⟩
  · intro it hit
    rw [seed_q_mem] at hit
    obtain ⟨hx, hy, hg, hd⟩ := hit
    refine ⟨hx, hy, by omega, ?_, by omega⟩
    rw [seed_dist, if_pos ⟨hx, hy, hg⟩, hd]
  · apply chain'_of_const
    intro it hit
    exact ((seed_q_mem maze w h it).mp hit).2.2.2
  · intro a ha it hit
    have h1 := ((seed_q_mem maze w h a).mp (List.mem_of_mem_head? ha)).2.2.2
    have h2 := ((seed_q_mem maze w h it).mp hit).2.2.2
    omega
  · intro x y hxy
    constructor
    · rw [seed_dist, if_neg (fun hc => hxy ⟨hc.1, hc.2.1⟩)]
    · rw [seed_dirs, if_neg hxy]
  · intro x y hx hy
    rw [seed_dirs, if_pos ⟨hx, hy⟩]
    by_cases hw : maze x y < 0
    · rw [if_pos hw]
      exact iff_of_true rfl hw
    · rw [if_neg hw]
      by_cases hg : maze x y = 1
      · rw [if_pos hg]
        exact iff_of_false (by decide) hw
      · rw [if_neg hg]
        exact iff_of_false (by decide) hw
  · intro x y hx hy
    rw [seed_dirs, if_pos ⟨hx, hy⟩]
    by_cases hw : maze x y < 0
    · rw [if_pos hw]
      exact iff_of_false (by decide) (by omega)
    · rw [if_neg hw]
      by_cases hg : maze x y = 1
      · rw [if_pos hg]
        exact iff_of_true rfl hg
      · rw [if_neg hg]
        exact iff_of_false (by decide) hg
  · intro x y hx hy hg
    rw [seed_dist, if_pos ⟨hx, hy, hg⟩]
  · intro x y hx hy
    by_cases hg : maze x y = 1
    · right; left
      constructor
      · rw [seed_dist, if_pos ⟨hx, hy, hg⟩]
      · rw [seed_dirs, if_pos (show x < w ∧ y < h from ⟨hx, hy⟩),
          if_neg (by omega), if_pos hg]
    · left
      constructor
      · rw [seed_dist, if_neg (fun hc => hg hc.2.2)]
      · rw [seed_dirs, if_pos (show x < w ∧ y < h from ⟨hx, hy⟩)]
        by_cases hw : maze x y < 0
        · rw [if_pos hw]
          exact Or.inl rfl
        · rw [if_neg hw, if_neg hg]
          exact Or.inr rfl
  · intro x y hx hy n hn
    rw [seed_dist] at hn
    by_cases hg : x < w ∧ y < h ∧ maze x y = 1
    · rw [if_pos hg] at hn
      have hn0 : n = 0 := by omega
      subst hn0
      exact ⟨Reach.goal hx hy hg.2.2, by omega⟩
    · rw [if_neg hg] at hn
      exfalso
      omega
  · intro x y hx hy harr
    exfalso
    rw [seed_dirs, if_pos ⟨hx, hy⟩] at harr
    by_cases hw : maze x y < 0
    · rw [if_pos hw] at harr
      exact absurd harr (by decide)
    · rw [if_neg hw] at harr
      by_cases hg : maze x y = 1
      · rw [if_pos hg] at harr
        exact absurd harr (by decide)
      · rw [if_neg hg] at harr
        exact absurd harr (by decide)
  · intro x y hx hy hge
    left
    have hg : maze x y = 1 := by
      by_contra hc
      rw [seed_dist, if_neg (fun hcc => hc hcc.2.2)] at hge
      omega
    exact ⟨⟨x, y, 0⟩, (seed_q_mem maze w h _).mpr ⟨hx, hy, hg, rfl⟩, rfl, rfl⟩
  · intro x y hx hy hun k hr
    obtain ⟨gx, gy, hgx, hgy, hgg⟩ := reach_goal_exists hr
    have hmem : (⟨gx, gy, 0⟩ : QItem) ∈ (seedLoop maze w h).q :=
      (seed_q_mem maze w h _).mpr ⟨hgx, hgy, hgg, rfl⟩
    cases hq : (seedLoop maze w h).q with
    | nil =>
      rw [hq] at hmem
      cases hmem
    | cons a t =>
      refine ⟨a, rfl, ?_⟩
      have ha : a.d = 0 :=
        ((seed_q_mem maze w h a).mp
          (by rw [hq]; exact List.mem_cons_self a t)).2.2.2
      have hk : k ≠ 0 := by
        intro h0
        subst h0
        have hg := reach_zero hr
        rw [seed_dist, if_pos ⟨hx, hy, hg⟩] at hun
        exact absurd hun (by decide)
      omega

theorem mu_seed (maze : Grid) (w h : Nat) :
    mu w h (seedLoop maze w h) ≤ floodFuelBound w h := by
  have h1 : unassigned w h (seedLoop maze w h).dist ≤ w * h := by
    calc ((Finset.range w ×ˢ Finset.range h).filter
          (fun c => (seedLoop maze w h).dist c.1 c.2 = -1)).card ≤
        (Finset.range w ×ˢ Finset.range h).card := Finset.card_filter_le _ _
      _ = w * h := by
        rw [Finset.card_product, Finset.card_range, Finset.card_range]
  have h2 := seed_q_length maze w h
  unfold mu floodFuelBound
  omega

/-- The flood loop always terminates within the fuel bound and the final
state satisfies the invariant with an empty queue. -/
theorem flood_final (maze : Grid) (w h : Nat) :
    ∃ s2 : St, loopFuel maze w h (floodFuelBound w h) (seedLoop maze w h) =
      some s2 ∧ Inv maze w h s2 ∧ s2.q = [] :=
  loop_total maze w h _ _ (seed_inv maze w h) (mu_seed maze w h)

theorem flood_isSome (maze : Grid) (w h : Nat) :
    (flood maze w h).isSome = true := by
  obtain ⟨s2, he, _, _⟩ := flood_final maze w h
  unfold flood
  rw [he]
  rfl

theorem flood_eq (maze : Grid) (w h : Nat) :
    ∃ s2 : St, Inv maze w h s2 ∧ s2.q = [] ∧
      flood maze w h = some
        { distances := s2.dist
          directions := s2.dirs
          is_reachable := directions2reachable s2.dirs w h } := by
  obtain ⟨s2, he, hinv, hq⟩ := flood_final maze w h
  refine ⟨s2, hinv, hq, ?_⟩
  unfold flood
  rw [he]
  rfl

/-- Trichotomy gives a lower bound of `-1` on every in-bounds distance. -/
theorem inv_dist_lb {maze : Grid} {w h : Nat} {s2 : St}
    (hinv : Inv maze w h s2) {x y : Nat} (hx : x < w) (hy : y < h) :
    -1 ≤ s2.dist x y := by
  rcases hinv.tri x y hx hy with ⟨hd, _⟩ | ⟨hd, _⟩ | ⟨hd, _⟩ <;> omega

/-- Full characterization of the final distance field: `-1` exactly on
walls and unreachable cells, and the exact shortest hop count elsewhere. -/
theorem final_dist_char (maze : Grid) (w h : Nat) (s2 : St)
    (hinv : Inv maze w h s2) (hq : s2.q = []) (x y : Nat)
    (hx : x < w) (hy : y < h) :
    (s2.dist x y = -1 ↔ (maze x y < 0 ∨ ∀ n : Nat, ¬Reach maze w h x y n)) ∧
    (∀ n : Nat, s2.dist x y = (n : Int) ↔
      (Reach maze w h x y n ∧ ∀ m : Nat, m < n → ¬Reach maze w h x y m)) := by
  have hassigned : ∀ n : Nat, s2.dist x y = (n : Int) →
      Reach maze w h x y n ∧ ∀ m : Nat, m < n → ¬Reach maze w h x y m :=
    fun n hn => hinv.distExact x y hx hy n hn
  have hunreach : s2.dist x y = -1 → ∀ n : Nat, ¬Reach maze w h x y n := by
    intro hun n hr
    obtain ⟨a, hhead, _⟩ := hinv.frontier x y hx hy hun n hr
    rw [hq] at hhead
    cases hhead
  constructor
  · constructor
    · intro hun
      exact Or.inr (hunreach hun)
    · intro hcase
      by_contra hne
      have hge : 0 ≤ s2.dist x y := by
        have := inv_dist_lb hinv hx hy
        omega
      obtain ⟨n, hn⟩ : ∃ n : Nat, s2.dist x y = (n : Int) :=
        ⟨(s2.dist x y).toNat, by omega⟩
      have hr := (hassigned n hn).1
      rcases hcase with hw | hunr
      · have := reach_open hr
        omega
      · exact hunr n hr
  · intro n
    constructor
    · exact hassigned n
    · rintro ⟨hr, hmin⟩
      by_cases hun : s2.dist x y = -1
      · exact absurd hr (hunreach hun n)
      · have hge : 0 ≤ s2.dist x y := by
          have := inv_dist_lb hinv hx hy
          omega
        obtain ⟨m, hm⟩ : ∃ m : Nat, s2.dist x y = (m : Int) :=
          ⟨(s2.dist x y).toNat, by omega⟩
        obtain ⟨hrm, hminm⟩ := hassigned m hm
        have : m = n := by
          by_contra hmn
          rcases Nat.lt_or_ge m n with hlt | hge2
          · exact hmin m hlt hrm
          · exact hminm n (by omega) hr
        rw [hm, this]

/-- The scan `directions2reachable` is true exactly when no in-bounds
cell carries the `' '` tag. -/
theorem d2r_iff (dirs : Nat → Nat → Char) (w h : Nat) :
    directions2reachable dirs w h = true ↔
      ∀ x y : Nat, x < w → y < h → dirs x y ≠ ' ' := by
  unfold directions2reachable
  simp only [List.all_eq_true, List.mem_range, bne_iff_ne, ne_eq]
  constructor
  · intro hall x y hx hy
    exact hall x hx y hy
  · intro hall x hx y hy
    exact hall x y hx hy

/-! ## Path construction on the final direction field -/

theorem cardStep_delta (ch : Char) (hch : ch ∈ arrowChars) (r c : Int) :
    CardStep (r, c) (r + (deltaOf ch).1, c + (deltaOf ch).2) := by
  fin_cases hch <;> simp [deltaOf, CardStep] <;> omega

/-- The loop `pathLoop` never produces the `NoPathExistsException` marker. -/
theorem pathLoop_ne_noPath (dirs : Nat → Nat → Char) (w h : Nat) :
    ∀ fuel : Nat, ∀ r c : Int, ∀ acc : List (Int × Int),
    pathLoop dirs w h fuel r c acc ≠ .noPathError := by
  intro fuel
  induction fuel with
  | zero => intro r c acc; simp [pathLoop]
  | succ n ih =>
    intro r c acc
    unfold pathLoop
    by_cases hb : 0 ≤ r ∧ r < (w : Int) ∧ 0 ≤ c ∧ c < (h : Int)
    · rw [if_pos hb]
      by_cases hX : dirs r.toNat c.toNat = 'X'
      · rw [if_pos hX]
        intro hc
        cases hc
      · rw [if_neg hX]
        exact ih _ _ _
    · rw [if_neg hb]
      intro hc
      cases hc

/-- Walking the final direction field from an assigned cell with distance
`n` terminates at a goal cell in exactly `n` steps, all in bounds, each a
cardinal step. -/
theorem pathLoop_ok (maze : Grid) (w h : Nat) (s2 : St)
    (hinv : Inv maze w h s2) :
    ∀ n : Nat, ∀ r c : Int, ∀ acc : List (Int × Int), ∀ fuel : Nat,
    0 ≤ r → r < (w : Int) → 0 ≤ c → c < (h : Int) →
    s2.dist r.toNat c.toNat = (n : Int) →
    n + 1 ≤ fuel →
    ∃ rest : List (Int × Int),
      pathLoop s2.dirs w h fuel r c acc = .ok (acc ++ rest) ∧
      rest.length = n ∧
      List.Chain CardStep (r, c) rest ∧
      (∀ z ∈ rest, 0 ≤ z.1 ∧ z.1 < (w : Int) ∧ 0 ≤ z.2 ∧ z.2 < (h : Int)) ∧
      (∀ z : Int × Int, ((r, c) :: rest).getLast? = some z →
        s2.dist z.1.toNat z.2.toNat = 0 ∧ s2.dirs z.1.toNat z.2.toNat = 'X') := by
  intro n
  induction n with
  | zero =>
    intro r c acc fuel hr0 hrw hc0 hch hd hfuel
    obtain ⟨f, rfl⟩ : ∃ f, fuel = f + 1 := ⟨fuel - 1, by omega⟩
    have hX : s2.dirs r.toNat c.toNat = 'X' := by
      rcases hinv.tri r.toNat c.toNat (by omega) (by omega) with
        ⟨hd2, _⟩ | ⟨_, hc2⟩ | ⟨hd2, _⟩
      · rw [hd] at hd2; omega
      · exact hc2
      · rw [hd] at hd2; omega
    refine ⟨[], ?_, rfl, List.Chain.nil, by simp, ?_⟩
    · unfold pathLoop
      rw [if_pos ⟨hr0, hrw, hc0, hch⟩, if_pos hX]
      rw [List.append_nil]
    · intro z hz
      simp only [List.getLast?_singleton, Option.some.injEq] at hz
      subst hz
      exact ⟨hd, hX⟩
  | succ n ih =>
    intro r c acc fuel hr0 hrw hc0 hch hd hfuel
    obtain ⟨f, rfl⟩ : ∃ f, fuel = f + 1 := ⟨fuel - 1, by omega⟩
    have harr : s2.dirs r.toNat c.toNat ∈ arrowChars := by
      rcases hinv.tri r.toNat c.toNat (by omega) (by omega) with
        ⟨hd2, _⟩ | ⟨hd2, _⟩ | ⟨_, hc2⟩
      · rw [hd] at hd2; omega
      · rw [hd] at hd2; omega
      · exact hc2
    have hXne : s2.dirs r.toNat c.toNat ≠ 'X' := arrow_ne_X harr
    obtain ⟨tx, ty, htxw, htyh, hex, hey, hdist⟩ :=
      hinv.arrow r.toNat c.toNat (by omega) (by omega) harr
    have hrt : (r.toNat : Int) = r := Int.toNat_of_nonneg hr0
    have hct : (c.toNat : Int) = c := Int.toNat_of_nonneg hc0
    rw [hrt] at hex
    rw [hct] at hey
    -- the new coordinates are exactly (tx, ty)
    have htnat : (r + (deltaOf (s2.dirs r.toNat c.toNat)).1).toNat = tx ∧
        (c + (deltaOf (s2.dirs r.toNat c.toNat)).2).toNat = ty := by
      constructor <;> omega
    have hdist2 : s2.dist (r + (deltaOf (s2.dirs r.toNat c.toNat)).1).toNat
        (c + (deltaOf (s2.dirs r.toNat c.toNat)).2).toNat = (n : Int) := by
      rw [htnat.1, htnat.2]
      rw [hd] at hdist
      rw [hdist]
      push_cast
      ring
    obtain ⟨rest, hres, hlen, hchain, hinb, hlast⟩ :=
      ih (r + (deltaOf (s2.dirs r.toNat c.toNat)).1)
        (c + (deltaOf (s2.dirs r.toNat c.toNat)).2)
        (acc ++ [(r + (deltaOf (s2.dirs r.toNat c.toNat)).1,
          c + (deltaOf (s2.dirs r.toNat c.toNat)).2)]) f
        (by omega) (by omega) (by omega) (by omega) hdist2 (by omega)
    refine ⟨(r + (deltaOf (s2.dirs r.toNat c.toNat)).1,
        c + (deltaOf (s2.dirs r.toNat c.toNat)).2) :: rest, ?_, ?_, ?_, ?_, ?_⟩
    · unfold pathLoop
      rw [if_pos ⟨hr0, hrw, hc0, hch⟩, if_neg hXne]
      rw [hres, List.append_assoc]
      rfl
    · simp [hlen]
    · exact List.Chain.cons (cardStep_delta _ harr r c) hchain
    · intro z hz
      rcases List.mem_cons.mp hz with rfl | hz2
      · exact ⟨by omega, by omega, by omega, by omega⟩
      · exact hinb z hz2
    · intro z hz
      apply hlast
      rw [← hz]
      rw [List.getLast?_cons_cons]

theorem build_path_ok (maze : Grid) (w h : Nat) (s2 : St)
    (hinv : Inv maze w h s2) (r c : Int) (n : Nat) (fuel : Nat)
    (hr0 : 0 ≤ r) (hrw : r < (w : Int)) (hc0 : 0 ≤ c) (hch : c < (h : Int))
    (hd : s2.dist r.toNat c.toNat = (n : Int)) (hfuel : n + 1 ≤ fuel) :
    ∃ rest : List (Int × Int),
      build_path s2.dirs w h r c fuel = .ok ((r, c) :: rest) ∧
      rest.length = n ∧
      List.Chain CardStep (r, c) rest ∧
      (∀ z ∈ (r, c) :: rest,
        0 ≤ z.1 ∧ z.1 < (w : Int) ∧ 0 ≤ z.2 ∧ z.2 < (h : Int)) ∧
      (∀ z : Int × Int, ((r, c) :: rest).getLast? = some z →
        s2.dist z.1.toNat z.2.toNat = 0 ∧ s2.dirs z.1.toNat z.2.toNat = 'X') := by
  have hnhash : ¬(s2.dirs r.toNat c.toNat = '#' ∨ s2.dirs r.toNat c.toNat = ' ') := by
    rcases hinv.tri r.toNat c.toNat (by omega) (by omega) with
      ⟨hd2, _⟩ | ⟨_, hc2⟩ | ⟨_, hc2⟩
    · rw [hd] at hd2; omega
    · rw [hc2]; decide
    · rintro (hc | hc)
      · exact arrow_ne_hash hc2 hc
      · exact arrow_ne_space hc2 hc
  obtain ⟨rest, hres, hlen, hchain, hinb, hlast⟩ :=
    pathLoop_ok maze w h s2 hinv n r c [(r, c)] fuel hr0 hrw hc0 hch hd hfuel
  refine ⟨rest, ?_, hlen, hchain, ?_, hlast⟩
  · unfold build_path
    rw [if_pos ⟨hr0, hrw, hc0, hch⟩, if_neg hnhash]
    rw [hres]
    rfl
  · intro z hz
    rcases List.mem_cons.mp hz with rfl | hz2
    · exact ⟨hr0, hrw, hc0, hch⟩
    · exact hinb z hz2

theorem build_path_noPath_iff (dirs : Nat → Nat → Char) (w h : Nat)
    (r c : Int) (fuel : Nat)
    (hr0 : 0 ≤ r) (hrw : r < (w : Int)) (hc0 : 0 ≤ c) (hch : c < (h : Int)) :
    build_path dirs w h r c fuel = .noPathError ↔
      (dirs r.toNat c.toNat = '#' ∨ dirs r.toNat c.toNat = ' ') := by
  unfold build_path
  rw [if_pos ⟨hr0, hrw, hc0, hch⟩]
  by_cases hcond : dirs r.toNat c.toNat = '#' ∨ dirs r.toNat c.toNat = ' '
  · rw [if_pos hcond]
    exact iff_of_true rfl hcond
  · rw [if_neg hcond]
    exact iff_of_false (pathLoop_ne_noPath dirs w h fuel r c _) hcond

/-! ## The historical variants (`src/unnamed/part_000`, `src/unnamed/part_002`) -/


theorem seedPlaceBase_dist (maze : Grid) (w h a b : Nat) :
    (seedPlaceBase maze w h).dist a b = -1 := rfl

theorem seedPlaceBase_dirs (maze : Grid) (w h a b : Nat) :
    (seedPlaceBase maze w h).dirs a b =
      if a < w ∧ b < h ∧ maze a b < 0 then '#' else ' ' := rfl

theorem seedPlaceBase_q (maze : Grid) (w h : Nat) :
    (seedPlaceBase maze w h).q = [] := rfl


theorem stepItem002_eq (maze : Grid) (w h : Nat) (it : QItem) (s : St) :
    stepItem002 maze w h it s = stepItemW int16cast maze w h it s := rfl

theorem loopFuel002_eq (maze : Grid) (w h : Nat) :
    ∀ fuel : Nat, ∀ s : St,
    loopFuel002 maze w h fuel s = loopFuelW int16cast maze w h fuel s := by
  intro fuel
  induction fuel with
  | zero => intro s; rfl
  | succ n ih =>
    intro s
    cases hq : s.q with
    | nil => simp [loopFuel002, loopFuelW, hq]
    | cons it rest =>
      simp only [loopFuel002, loopFuelW, hq]
      rw [stepItem002_eq]
      exact ih _

theorem stepItemW_id (maze : Grid) (w h : Nat) (it : QItem) (s : St) :
    stepItemW id maze w h it s = stepItem maze w h it s := rfl

theorem loopFuelW_id (maze : Grid) (w h : Nat) :
    ∀ fuel : Nat, ∀ s : St,
    loopFuelW id maze w h fuel s = loopFuel maze w h fuel s := by
  intro fuel
  induction fuel with
  | zero => intro s; rfl
  | succ n ih =>
    intro s
    cases hq : s.q with
    | nil => simp [loopFuelW, loopFuel, hq]
    | cons it rest =>
      simp only [loopFuelW, loopFuel, hq]
      rw [stepItemW_id]
      exact ih _

theorem seedPlace_fold_dist (l : List (Nat × Nat)) (s : St)
    (a b : Nat) :
    ((l.foldl (fun s g =>
        { dist := update2 s.dist g.1 g.2 0
          dirs := update2 s.dirs g.1 g.2 'X'
          q := s.q ++ [(⟨g.1, g.2, 0⟩ : QItem)] }) s).dist a b)
      = if (a, b) ∈ l then 0 else s.dist a b := by
  induction l generalizing s with
  | nil => simp
  | cons g t ih =>
    simp only [List.foldl_cons, ih, List.mem_cons]
    by_cases ht : (a, b) ∈ t
    · simp [ht]
    · rw [if_neg ht]
      by_cases hg : g = (a, b)
      · subst hg
        rw [if_pos (Or.inl rfl)]
        show update2 s.dist a b 0 a b = 0
        rw [update2_same]
      · have hne : ¬(a = g.1 ∧ b = g.2) := by
          intro ⟨h1, h2⟩
          exact hg (by cases g; simp_all)
        rw [if_neg (by simp [ht]; intro hc; exact absurd hc.symm hg)]
        show update2 s.dist g.1 g.2 0 a b = s.dist a b
        rw [update2_ne _ _ _ _ _ _ hne]

theorem seedPlace_fold_dirs (l : List (Nat × Nat)) (s : St)
    (a b : Nat) :
    ((l.foldl (fun s g =>
        { dist := update2 s.dist g.1 g.2 0
          dirs := update2 s.dirs g.1 g.2 'X'
          q := s.q ++ [(⟨g.1, g.2, 0⟩ : QItem)] }) s).dirs a b)
      = if (a, b) ∈ l then 'X' else s.dirs a b := by
  induction l generalizing s with
  | nil => simp
  | cons g t ih =>
    simp only [List.foldl_cons, ih, List.mem_cons]
    by_cases ht : (a, b) ∈ t
    · simp [ht]
    · rw [if_neg ht]
      by_cases hg : g = (a, b)
      · subst hg
        rw [if_pos (Or.inl rfl)]
        show update2 s.dirs a b 'X' a b = 'X'
        rw [update2_same]
      · have hne : ¬(a = g.1 ∧ b = g.2) := by
          intro ⟨h1, h2⟩
          exact hg (by cases g; simp_all)
        rw [if_neg (by simp [ht]; intro hc; exact absurd hc.symm hg)]
        show update2 s.dirs g.1 g.2 'X' a b = s.dirs a b
        rw [update2_ne _ _ _ _ _ _ hne]

theorem seedPlace_fold_q (l : List (Nat × Nat)) (s : St) :
    ((l.foldl (fun s g =>
        { dist := update2 s.dist g.1 g.2 0
          dirs := update2 s.dirs g.1 g.2 'X'
          q := s.q ++ [(⟨g.1, g.2, 0⟩ : QItem)] }) s).q)
      = s.q ++ l.map fun g => (⟨g.1, g.2, 0⟩ : QItem) := by
  induction l generalizing s with
  | nil => simp
  | cons g t ih =>
    simp only [List.foldl_cons, ih, List.map_cons]
    simp

theorem seedPlace_eq (maze : Grid) (w h : Nat) :
    seedPlace maze w h = seedLoop maze w h := by
  have hmemf : ∀ a b : Nat,
      ((a, b) ∈ (cells w h).filter fun c => maze c.1 c.2 = 1) ↔
      (a < w ∧ b < h ∧ maze a b = 1) := by
    intro a b
    rw [List.mem_filter, mem_cells]
    constructor
    · rintro ⟨⟨h1, h2⟩, h3⟩
      exact ⟨h1, h2, by simpa using h3⟩
    · rintro ⟨h1, h2, h3⟩
      exact ⟨⟨h1, h2⟩, by simpa using h3⟩
  have hd : (seedPlace maze w h).dist = (seedLoop maze w h).dist := by
    funext a b
    rw [seed_dist]
    unfold seedPlace
    rw [seedPlace_fold_dist, seedPlaceBase_dist]
    by_cases hc : a < w ∧ b < h ∧ maze a b = 1
    · rw [if_pos ((hmemf a b).mpr hc), if_pos hc]
    · rw [if_neg (fun hm => hc ((hmemf a b).mp hm)), if_neg hc]
  have hr : (seedPlace maze w h).dirs = (seedLoop maze w h).dirs := by
    funext a b
    rw [seed_dirs]
    unfold seedPlace
    rw [seedPlace_fold_dirs, seedPlaceBase_dirs]
    by_cases hc : a < w ∧ b < h ∧ maze a b = 1
    · rw [if_pos ((hmemf a b).mpr hc),
        if_pos (show a < w ∧ b < h from ⟨hc.1, hc.2.1⟩),
        if_neg (show ¬maze a b < 0 by omega), if_pos hc.2.2]
    · rw [if_neg (fun hm => hc ((hmemf a b).mp hm))]
      by_cases hin : a < w ∧ b < h
      · rw [if_pos hin]
        by_cases hw : maze a b < 0
        · rw [if_pos (show a < w ∧ b < h ∧ maze a b < 0 from ⟨hin.1, hin.2, hw⟩),
            if_pos hw]
        · rw [if_neg (show ¬(a < w ∧ b < h ∧ maze a b < 0) by tauto), if_neg hw,
            if_neg (fun hg => hc ⟨hin.1, hin.2, hg⟩)]
      · rw [if_neg (show ¬(a < w ∧ b < h ∧ maze a b < 0) by tauto), if_neg hin]
  have hq : (seedPlace maze w h).q = (seedLoop maze w h).q := by
    rw [seed_q]
    unfold seedPlace
    rw [seedPlace_fold_q, seedPlaceBase_q, List.nil_append]
    induction (cells w h) with
    | nil => rfl
    | cons c t ih =>
      by_cases hg : maze c.1 c.2 = 1
      · simp [List.filter_cons, List.filterMap_cons, hg, ih]
      · simp [List.filter_cons, List.filterMap_cons, hg, ih]
  cases hsp : seedPlace maze w h with
  | mk d r q =>
    cases hsl : seedLoop maze w h with
    | mk d2 r2 q2 =>
      rw [hsp] at hd hr hq
      rw [hsl] at hd hr hq
      simp only at hd hr hq
      rw [hd, hr, hq]

theorem spaceNotIn_eq (dirs : Nat → Nat → Char) (w h : Nat) :
    spaceNotIn dirs w h = directions2reachable dirs w h := by
  have hiff : spaceNotIn dirs w h = true ↔
      directions2reachable dirs w h = true := by
    rw [d2r_iff]
    unfold spaceNotIn
    rw [Bool.not_eq_true', List.any_eq_false]
    constructor
    · intro hno x y hx hy hsp
      have h2 := hno x (List.mem_range.mpr hx)
      exact h2 (List.any_eq_true.mpr
        ⟨y, List.mem_range.mpr hy, beq_iff_eq.mpr hsp⟩)
    · intro hall x hx hinner
      rw [List.mem_range] at hx
      obtain ⟨y, hy, hbeq⟩ := List.any_eq_true.mp hinner
      rw [List.mem_range] at hy
      rw [beq_iff_eq] at hbeq
      exact hall x y hx hy hbeq
  exact Bool.coe_iff_coe.mp hiff

/-! ## A bound on the distance values -/

/-- Every value between 0 and an achieved distance is achieved by some
cell (walk down the arrow chain). -/
theorem dist_val_achieved {maze : Grid} {w h : Nat} {s2 : St}
    (hinv : Inv maze w h s2) :
    ∀ k n : Nat, ∀ x y : Nat, x < w → y < h → s2.dist x y = (n : Int) →
    k ≤ n → ∃ a b : Nat, a < w ∧ b < h ∧ s2.dist a b = ((n - k : Nat) : Int) := by
  intro k
  induction k with
  | zero =>
    intro n x y hx hy hd _
    exact ⟨x, y, hx, hy, by simpa using hd⟩
  | succ k ih =>
    intro n x y hx hy hd hk
    obtain ⟨a, b, ha, hb, hd2⟩ := ih n x y hx hy hd (by omega)
    have hpos : 1 ≤ s2.dist a b := by
      rw [hd2]
      omega
    have harr : s2.dirs a b ∈ arrowChars := by
      rcases hinv.tri a b ha hb with ⟨hd3, _⟩ | ⟨hd3, _⟩ | ⟨_, hc3⟩
      · omega
      · omega
      · exact hc3
    obtain ⟨tx, ty, htxw, htyh, _, _, hdist⟩ := hinv.arrow a b ha hb harr
    refine ⟨tx, ty, htxw, htyh, ?_⟩
    rw [hdist, hd2]
    omega

/-- Any achieved distance value is below the number of grid cells. -/
theorem dist_lt_area {maze : Grid} {w h : Nat} {s2 : St}
    (hinv : Inv maze w h s2) {x y n : Nat} (hx : x < w) (hy : y < h)
    (hd : s2.dist x y = (n : Int)) : n < w * h := by
  have hach : ∀ k : Nat, k ≤ n → ∃ p : Nat × Nat, p.1 < w ∧ p.2 < h ∧
      s2.dist p.1 p.2 = (k : Int) := by
    intro k hk
    obtain ⟨a, b, ha, hb, hd2⟩ :=
      dist_val_achieved hinv (n - k) n x y hx hy hd (by omega)
    exact ⟨(a, b), ha, hb, by rw [hd2]; congr 1; omega⟩
  classical
  choose f hf1 hf2 hf3 using hach
  let g : Nat → Nat × Nat := fun k => if hk : k ≤ n then f k hk else (0, 0)
  have hcard : (Finset.range (n + 1)).card ≤
      (Finset.range w ×ˢ Finset.range h).card := by
    apply Finset.card_le_card_of_injOn g
    · intro k hk
      rw [Finset.mem_range] at hk
      have hkn : k ≤ n := by omega
      simp only [g, dif_pos hkn, Finset.mem_product, Finset.mem_range]
      exact ⟨hf1 k hkn, hf2 k hkn⟩
    · intro k1 hk1 k2 hk2 heq
      rw [Finset.coe_range, Set.mem_Iio] at hk1 hk2
      have hkn1 : k1 ≤ n := by omega
      have hkn2 : k2 ≤ n := by omega
      simp only [g, dif_pos hkn1, dif_pos hkn2] at heq
      have hv1 := hf3 k1 hkn1
      have hv2 := hf3 k2 hkn2
      rw [heq, hv2] at hv1
      omega
  rw [Finset.card_range, Finset.card_product, Finset.card_range,
    Finset.card_range] at hcard
  omega

/-- Below the int16 wrap threshold the cast is the identity on every
value the loop stores, so the wrapped loops coincide with the exact one.
The bound comes from `dist_lt_area`: queue distances are exact shortest
distances, hence below `w * h`. -/
theorem stepItemW_int16_eq (maze : Grid) (w h : Nat) (it : QItem) (s : St)
    (hlt : 0 ≤ it.d + 1 ∧ it.d + 1 < 32768) :
    stepItemW int16cast maze w h it s = stepItem maze w h it s := by
  have hcast : int16cast (it.d + 1) = it.d + 1 := by
    unfold int16cast
    omega
  unfold stepItemW stepItem
  congr 1
  funext s2 oc
  unfold relaxW relax
  rw [hcast]

theorem loopFuelW_int16_eq (maze : Grid) (w h : Nat) (hwh : w * h < 32768) :
    ∀ fuel : Nat, ∀ s : St, Inv maze w h s →
    loopFuelW int16cast maze w h fuel s = loopFuel maze w h fuel s := by
  intro fuel
  induction fuel with
  | zero => intro s _; rfl
  | succ n ih =>
    intro s hinv
    cases hq : s.q with
    | nil => simp [loopFuelW, loopFuel, hq]
    | cons it rest =>
      simp only [loopFuelW, loopFuel, hq]
      obtain ⟨hx, hy, _, hdist, hd0⟩ :=
        hinv.qmem it (by rw [hq]; exact List.mem_cons_self _ _)
      have hdn : s.dist it.x it.y = ((it.d.toNat : Nat) : Int) := by
        rw [hdist]; omega
      have hub := dist_lt_area hinv hx hy hdn
      rw [stepItemW_int16_eq maze w h it _ (by omega)]
      exact ih _ (iterate_pres maze w h s hinv it rest hq).1

theorem flood002_small (maze : Grid) (w h : Nat) (hwh : w * h < 32768) :
    flood002 maze w h = flood maze w h := by
  unfold flood002 flood
  rw [seedPlace_eq, loopFuel002_eq,
    loopFuelW_int16_eq maze w h hwh _ _ (seed_inv maze w h)]
  have hfeq : (fun s : St =>
      ({ distances := s.dist, directions := s.dirs,
         is_reachable := spaceNotIn s.dirs w h } : FloodOut)) =
      (fun s : St =>
      ({ distances := s.dist, directions := s.dirs,
         is_reachable := directions2reachable s.dirs w h } : FloodOut)) := by
    funext s
    rw [spaceNotIn_eq]
  rw [hfeq]

theorem flood000_small (maze : Grid) (w h : Nat) (hwh : w * h < 32768) :
    flood000 maze w h = flood maze w h := by
  unfold flood000 flood
  rw [seedPlace_eq,
    loopFuelW_int16_eq maze w h hwh _ _ (seed_inv maze w h)]
  have hfeq : (fun s : St =>
      ({ distances := s.dist, directions := s.dirs,
         is_reachable := spaceNotIn s.dirs w h } : FloodOut)) =
      (fun s : St =>
      ({ distances := s.dist, directions := s.dirs,
         is_reachable := directions2reachable s.dirs w h } : FloodOut)) := by
    funext s
    rw [spaceNotIn_eq]
  rw [hfeq]

/-! ## The corridor: a grid on which the int16 distance arrays wrap -/

/-- Two states with equal components are equal. -/
theorem st_ext (a b : St) (h1 : a.dist = b.dist) (h2 : a.dirs = b.dirs)
    (h3 : a.q = b.q) : a = b := by
  cases a; cases b; simp_all

/-- A relaxation toward an out-of-bounds neighbour does nothing. -/
theorem relaxW_oob (sg : Int → Int) (maze : Grid) (w h : Nat) (it : QItem)
    (s : St) (oc : (Int × Int) × Char)
    (hb : ¬(0 ≤ (nbr it oc).1 ∧ (nbr it oc).1 < (w : Int) ∧
      0 ≤ (nbr it oc).2 ∧ (nbr it oc).2 < (h : Int))) :
    relaxW sg maze w h it s oc = s := by
  simp only [relaxW]
  rw [if_neg hb]

/-- A relaxation toward a wall or an already assigned neighbour does
nothing. -/
theorem relaxW_skip (sg : Int → Int) (maze : Grid) (w h : Nat) (it : QItem)
    (s : St) (oc : (Int × Int) × Char)
    (hb : 0 ≤ (nbr it oc).1 ∧ (nbr it oc).1 < (w : Int) ∧
      0 ≤ (nbr it oc).2 ∧ (nbr it oc).2 < (h : Int))
    (hc : ¬(0 ≤ maze (nbr it oc).1.toNat (nbr it oc).2.toNat ∧
      s.dist (nbr it oc).1.toNat (nbr it oc).2.toNat = -1)) :
    relaxW sg maze w h it s oc = s := by
  simp only [relaxW]
  rw [if_pos hb, if_neg hc]

/-- A successful relaxation assigns the neighbour (store-cast applied)
and pushes it (uncast). -/
theorem relaxW_push (sg : Int → Int) (maze : Grid) (w h : Nat) (it : QItem)
    (s : St) (oc : (Int × Int) × Char)
    (hb : 0 ≤ (nbr it oc).1 ∧ (nbr it oc).1 < (w : Int) ∧
      0 ≤ (nbr it oc).2 ∧ (nbr it oc).2 < (h : Int))
    (hc : 0 ≤ maze (nbr it oc).1.toNat (nbr it oc).2.toNat ∧
      s.dist (nbr it oc).1.toNat (nbr it oc).2.toNat = -1) :
    relaxW sg maze w h it s oc =
      { dist := update2 s.dist (nbr it oc).1.toNat (nbr it oc).2.toNat
          (sg (it.d + 1))
        dirs := update2 s.dirs (nbr it oc).1.toNat (nbr it oc).2.toNat oc.2
        q := s.q ++ [⟨(nbr it oc).1.toNat, (nbr it oc).2.toNat, it.d + 1⟩] } := by
  simp only [relaxW]
  rw [if_pos hb, if_pos hc]

/-- The variants' loop returns at once on an empty queue. -/
theorem loopFuelW_empty (sg : Int → Int) (maze : Grid) (w h fuel : Nat)
    (s : St) (hq : s.q = []) :
    loopFuelW sg maze w h fuel s = some s := by
  cases fuel <;> simp [loopFuelW, hq]

/-- One unfolding of the variants' loop on a non-empty queue. -/
theorem loopFuelW_cons (sg : Int → Int) (maze : Grid) (w h n : Nat)
    (s : St) (it : QItem) (rest : List QItem) (hq : s.q = it :: rest) :
    loopFuelW sg maze w h (n + 1) s =
      loopFuelW sg maze w h n (stepItemW sg maze w h it { s with q := rest }) := by
  simp only [loopFuelW, hq]

/-- The four relaxations of one step, spelled out. -/
theorem stepItemW_unfold (sg : Int → Int) (maze : Grid) (w h : Nat)
    (it : QItem) (s : St) :
    stepItemW sg maze w h it s =
      relaxW sg maze w h it (relaxW sg maze w h it (relaxW sg maze w h it
        (relaxW sg maze w h it s ((1, 0), '^')) ((-1, 0), 'v'))
        ((0, 1), '<')) ((0, -1), '>') := rfl

/-- Every corridor cell is open (`0`) or the goal (`1`). -/
theorem corridorMaze_nonneg (h x y : Nat) : 0 ≤ corridorMaze h x y := by
  unfold corridorMaze
  split <;> omega

/-- Pointwise value of the corridor state distance field. -/
theorem corridorSt_dist_eval (sg : Int → Int) (h k x y : Nat) :
    (corridorSt sg h k).dist x y =
      if x = 0 ∧ h - 1 - k ≤ y ∧ y < h then
        (if y = h - 1 then 0 else sg ((h - 1 - y : Nat) : Int))
      else -1 := rfl

/-- Pointwise value of the corridor state direction field. -/
theorem corridorSt_dirs_eval (sg : Int → Int) (h k x y : Nat) :
    (corridorSt sg h k).dirs x y =
      if x = 0 ∧ h - 1 - k ≤ y ∧ y < h then
        (if y = h - 1 then 'X' else '>')
      else ' ' := rfl

/-- On assigned corridor cells the stored distance is never `-1`, as
long as the store-cast avoids `-1` on `0 .. h`. -/
theorem corridorSt_dist_ne (sg : Int → Int) (h k x y : Nat)
    (hsg : ∀ d : Nat, d ≤ h → sg (d : Int) ≠ -1)
    (hx : x = 0) (hy1 : h - 1 - k ≤ y) (hy2 : y < h) :
    (corridorSt sg h k).dist x y ≠ -1 := by
  rw [corridorSt_dist_eval,
    if_pos (show x = 0 ∧ h - 1 - k ≤ y ∧ y < h from ⟨hx, hy1, hy2⟩)]
  by_cases hg : y = h - 1
  · rw [if_pos hg]
    decide
  · rw [if_neg hg]
    exact hsg _ (by omega)

/-- Seeding the corridor yields the 0-iteration corridor state. -/
theorem corridor_seed (sg : Int → Int) (h : Nat) (h1 : 1 ≤ h) :
    seedPlace (corridorMaze h) 1 h = corridorSt sg h 0 := by
  obtain ⟨n, rfl⟩ : ∃ n, h = n + 1 := ⟨h - 1, by omega⟩
  have hcells : cells 1 (n + 1) =
      (List.range (n + 1)).map fun y => ((0 : Nat), y) := by
    unfold cells
    rw [show List.range 1 = [0] from rfl]
    simp only [List.flatMap_cons, List.flatMap_nil, List.append_nil]
  have hlist : ((cells 1 (n + 1)).filter fun c =>
      corridorMaze (n + 1) c.1 c.2 = 1) = [((0 : Nat), n)] := by
    rw [hcells, List.filter_map]
    rw [List.range_succ, List.filter_append]
    have hnil : (List.range n).filter
        ((fun c : Nat × Nat => decide (corridorMaze (n + 1) c.1 c.2 = 1)) ∘
          fun y => ((0 : Nat), y)) = [] := by
      apply List.filter_eq_nil_iff.mpr
      intro a ha
      rw [List.mem_range] at ha
      simp only [Function.comp_apply, corridorMaze, decide_eq_true_eq]
      rw [if_neg (show ¬a = n + 1 - 1 from by omega)]
      decide
    have hone : ([n] : List Nat).filter
        ((fun c : Nat × Nat => decide (corridorMaze (n + 1) c.1 c.2 = 1)) ∘
          fun y => ((0 : Nat), y)) = [n] := by
      simp [corridorMaze]
    rw [hnil, hone]
    rfl
  unfold seedPlace
  rw [hlist]
  simp only [List.foldl_cons, List.foldl_nil]
  apply st_ext
  · funext a b
    show update2 (seedPlaceBase (corridorMaze (n + 1)) 1 (n + 1)).dist 0 n 0 a b
      = (corridorSt sg (n + 1) 0).dist a b
    rw [corridorSt_dist_eval]
    by_cases hab : a = 0 ∧ b = n
    · obtain ⟨rfl, hbn⟩ := hab
      rw [hbn, update2_same,
        if_pos (show (0 : Nat) = 0 ∧ n + 1 - 1 - 0 ≤ n ∧ n < n + 1 from
          ⟨rfl, by omega, by omega⟩),
        if_pos (show n = n + 1 - 1 from by omega)]
    · rw [update2_ne _ _ _ _ _ _ hab, seedPlaceBase_dist,
        if_neg (show ¬(a = 0 ∧ n + 1 - 1 - 0 ≤ b ∧ b < n + 1) from by
          rintro ⟨ha, hb1, hb2⟩
          exact hab ⟨ha, by omega⟩)]
  · funext a b
    show update2 (seedPlaceBase (corridorMaze (n + 1)) 1 (n + 1)).dirs 0 n 'X' a b
      = (corridorSt sg (n + 1) 0).dirs a b
    rw [corridorSt_dirs_eval]
    by_cases hab : a = 0 ∧ b = n
    · obtain ⟨rfl, hbn⟩ := hab
      rw [hbn, update2_same,
        if_pos (show (0 : Nat) = 0 ∧ n + 1 - 1 - 0 ≤ n ∧ n < n + 1 from
          ⟨rfl, by omega, by omega⟩),
        if_pos (show n = n + 1 - 1 from by omega)]
    · rw [update2_ne _ _ _ _ _ _ hab, seedPlaceBase_dirs,
        if_neg (show ¬(a < 1 ∧ b < n + 1 ∧ corridorMaze (n + 1) a b < 0) from by
          rintro ⟨_, _, hneg⟩
          have := corridorMaze_nonneg (n + 1) a b
          omega),
        if_neg (show ¬(a = 0 ∧ n + 1 - 1 - 0 ≤ b ∧ b < n + 1) from by
          rintro ⟨ha, hb1, hb2⟩
          exact hab ⟨ha, by omega⟩)]
  · rfl

/-- One BFS step on the corridor, away from the left end: only the
relaxation toward the smaller column fires. -/
theorem corridor_step (sg : Int → Int) (h k : Nat) (hk : k + 1 < h)
    (hsg : ∀ d : Nat, d ≤ h → sg (d : Int) ≠ -1) :
    stepItemW sg (corridorMaze h) 1 h ⟨0, h - 1 - k, (k : Int)⟩
      { corridorSt sg h k with q := [] } = corridorSt sg h (k + 1) := by
  have hb1 : ¬(0 ≤ (nbr (⟨0, h - 1 - k, (k : Int)⟩ : QItem) ((1, 0), '^')).1 ∧
      (nbr (⟨0, h - 1 - k, (k : Int)⟩ : QItem) ((1, 0), '^')).1 < ((1 : Nat) : Int) ∧
      0 ≤ (nbr (⟨0, h - 1 - k, (k : Int)⟩ : QItem) ((1, 0), '^')).2 ∧
      (nbr (⟨0, h - 1 - k, (k : Int)⟩ : QItem) ((1, 0), '^')).2 < (h : Int)) := by
    simp only [nbr]
    omega
  have hb2 : ¬(0 ≤ (nbr (⟨0, h - 1 - k, (k : Int)⟩ : QItem) ((-1, 0), 'v')).1 ∧
      (nbr (⟨0, h - 1 - k, (k : Int)⟩ : QItem) ((-1, 0), 'v')).1 < ((1 : Nat) : Int) ∧
      0 ≤ (nbr (⟨0, h - 1 - k, (k : Int)⟩ : QItem) ((-1, 0), 'v')).2 ∧
      (nbr (⟨0, h - 1 - k, (k : Int)⟩ : QItem) ((-1, 0), 'v')).2 < (h : Int)) := by
    simp only [nbr]
    omega
  have e3 : relaxW sg (corridorMaze h) 1 h ⟨0, h - 1 - k, (k : Int)⟩
      { corridorSt sg h k with q := [] } ((0, 1), '<') =
      { corridorSt sg h k with q := [] } := by
    by_cases hk0 : k = 0
    · apply relaxW_oob
      subst hk0
      simp only [nbr]
      omega
    · apply relaxW_skip
      · simp only [nbr]
        omega
      · intro hcon
        have hd := hcon.2
        rw [show ((nbr (⟨0, h - 1 - k, (k : Int)⟩ : QItem) ((0, 1), '<')).1).toNat = 0
              from by simp only [nbr]; omega,
            show ((nbr (⟨0, h - 1 - k, (k : Int)⟩ : QItem) ((0, 1), '<')).2).toNat = h - k
              from by simp only [nbr]; omega] at hd
        exact corridorSt_dist_ne sg h k 0 (h - k) hsg rfl (by omega) (by omega) hd
  have hb4 : 0 ≤ (nbr (⟨0, h - 1 - k, (k : Int)⟩ : QItem) ((0, -1), '>')).1 ∧
      (nbr (⟨0, h - 1 - k, (k : Int)⟩ : QItem) ((0, -1), '>')).1 < ((1 : Nat) : Int) ∧
      0 ≤ (nbr (⟨0, h - 1 - k, (k : Int)⟩ : QItem) ((0, -1), '>')).2 ∧
      (nbr (⟨0, h - 1 - k, (k : Int)⟩ : QItem) ((0, -1), '>')).2 < (h : Int) := by
    simp only [nbr]
    omega
  have hx4 : ((nbr (⟨0, h - 1 - k, (k : Int)⟩ : QItem) ((0, -1), '>')).1).toNat = 0 := by
    simp only [nbr]
    omega
  have hy4 : ((nbr (⟨0, h - 1 - k, (k : Int)⟩ : QItem) ((0, -1), '>')).2).toNat
      = h - 2 - k := by
    simp only [nbr]
    omega
  have hc4 : 0 ≤ corridorMaze h
        ((nbr (⟨0, h - 1 - k, (k : Int)⟩ : QItem) ((0, -1), '>')).1).toNat
        ((nbr (⟨0, h - 1 - k, (k : Int)⟩ : QItem) ((0, -1), '>')).2).toNat ∧
      ({ corridorSt sg h k with q := ([] : List QItem) } : St).dist
        ((nbr (⟨0, h - 1 - k, (k : Int)⟩ : QItem) ((0, -1), '>')).1).toNat
        ((nbr (⟨0, h - 1 - k, (k : Int)⟩ : QItem) ((0, -1), '>')).2).toNat = -1 := by
    constructor
    · exact corridorMaze_nonneg h _ _
    · rw [hx4, hy4]
      show (corridorSt sg h k).dist 0 (h - 2 - k) = -1
      rw [corridorSt_dist_eval,
        if_neg (show ¬((0 : Nat) = 0 ∧ h - 1 - k ≤ h - 2 - k ∧ h - 2 - k < h) from by
          rintro ⟨_, hle, _⟩
          omega)]
  rw [stepItemW_unfold,
    relaxW_oob sg (corridorMaze h) 1 h _ _ ((1, 0), '^') hb1,
    relaxW_oob sg (corridorMaze h) 1 h _ _ ((-1, 0), 'v') hb2,
    e3,
    relaxW_push sg (corridorMaze h) 1 h _ _ ((0, -1), '>') hb4 hc4,
    hx4, hy4]
  apply st_ext
  · funext a b
    show update2 (corridorSt sg h k).dist 0 (h - 2 - k) (sg ((k : Int) + 1)) a b
      = (corridorSt sg h (k + 1)).dist a b
    rw [corridorSt_dist_eval sg h (k + 1)]
    by_cases hab : a = 0 ∧ b = h - 2 - k
    · obtain ⟨rfl, hbn⟩ := hab
      rw [hbn, update2_same,
        if_pos (show (0 : Nat) = 0 ∧ h - 1 - (k + 1) ≤ h - 2 - k ∧ h - 2 - k < h from
          ⟨rfl, by omega, by omega⟩),
        if_neg (show ¬(h - 2 - k = h - 1) from by omega)]
      rw [show ((k : Int) + 1) = (((h - 1 - (h - 2 - k) : Nat) : Int)) from by omega]
    · rw [update2_ne _ _ _ _ _ _ hab, corridorSt_dist_eval sg h k]
      by_cases hin : a = 0 ∧ h - 1 - k ≤ b ∧ b < h
      · rw [if_pos hin,
          if_pos (show a = 0 ∧ h - 1 - (k + 1) ≤ b ∧ b < h from
            ⟨hin.1, by omega, hin.2.2⟩)]
      · have hout : ¬(a = 0 ∧ h - 1 - (k + 1) ≤ b ∧ b < h) := by
          rintro ⟨ha, hb1, hb2⟩
          have hbne : b ≠ h - 2 - k := fun hbe => hab ⟨ha, hbe⟩
          exact hin ⟨ha, by omega, hb2⟩
        rw [if_neg hin, if_neg hout]
  · funext a b
    show update2 (corridorSt sg h k).dirs 0 (h - 2 - k) '>' a b
      = (corridorSt sg h (k + 1)).dirs a b
    rw [corridorSt_dirs_eval sg h (k + 1)]
    by_cases hab : a = 0 ∧ b = h - 2 - k
    · obtain ⟨rfl, hbn⟩ := hab
      rw [hbn, update2_same,
        if_pos (show (0 : Nat) = 0 ∧ h - 1 - (k + 1) ≤ h - 2 - k ∧ h - 2 - k < h from
          ⟨rfl, by omega, by omega⟩),
        if_neg (show ¬(h - 2 - k = h - 1) from by omega)]
    · rw [update2_ne _ _ _ _ _ _ hab, corridorSt_dirs_eval sg h k]
      by_cases hin : a = 0 ∧ h - 1 - k ≤ b ∧ b < h
      · rw [if_pos hin,
          if_pos (show a = 0 ∧ h - 1 - (k + 1) ≤ b ∧ b < h from
            ⟨hin.1, by omega, hin.2.2⟩)]
      · have hout : ¬(a = 0 ∧ h - 1 - (k + 1) ≤ b ∧ b < h) := by
          rintro ⟨ha, hb1, hb2⟩
          have hbne : b ≠ h - 2 - k := fun hbe => hab ⟨ha, hbe⟩
          exact hin ⟨ha, by omega, hb2⟩
        rw [if_neg hin, if_neg hout]
  · show ([] : List QItem) ++ [⟨0, h - 2 - k, (k : Int) + 1⟩]
      = [⟨0, h - 1 - (k + 1), ((k + 1 : Nat) : Int)⟩]
    rw [List.nil_append,
      show h - 2 - k = h - 1 - (k + 1) from by omega,
      show ((k : Int) + 1) = ((k + 1 : Nat) : Int) from by omega]

/-- The final BFS step on the corridor (frontier at column 0): every
relaxation is out of bounds or hits an assigned cell, so the state is
unchanged and the queue empties. -/
theorem corridor_last_step (sg : Int → Int) (h : Nat) (h1 : 1 ≤ h)
    (hsg : ∀ d : Nat, d ≤ h → sg (d : Int) ≠ -1) :
    stepItemW sg (corridorMaze h) 1 h
      ⟨0, h - 1 - (h - 1), ((h - 1 : Nat) : Int)⟩
      { corridorSt sg h (h - 1) with q := [] } = corridorFin sg h := by
  have hb1 : ¬(0 ≤ (nbr (⟨0, h - 1 - (h - 1), ((h - 1 : Nat) : Int)⟩ : QItem) ((1, 0), '^')).1 ∧
      (nbr (⟨0, h - 1 - (h - 1), ((h - 1 : Nat) : Int)⟩ : QItem) ((1, 0), '^')).1 < ((1 : Nat) : Int) ∧
      0 ≤ (nbr (⟨0, h - 1 - (h - 1), ((h - 1 : Nat) : Int)⟩ : QItem) ((1, 0), '^')).2 ∧
      (nbr (⟨0, h - 1 - (h - 1), ((h - 1 : Nat) : Int)⟩ : QItem) ((1, 0), '^')).2 < (h : Int)) := by
    simp only [nbr]
    omega
  have hb2 : ¬(0 ≤ (nbr (⟨0, h - 1 - (h - 1), ((h - 1 : Nat) : Int)⟩ : QItem) ((-1, 0), 'v')).1 ∧
      (nbr (⟨0, h - 1 - (h - 1), ((h - 1 : Nat) : Int)⟩ : QItem) ((-1, 0), 'v')).1 < ((1 : Nat) : Int) ∧
      0 ≤ (nbr (⟨0, h - 1 - (h - 1), ((h - 1 : Nat) : Int)⟩ : QItem) ((-1, 0), 'v')).2 ∧
      (nbr (⟨0, h - 1 - (h - 1), ((h - 1 : Nat) : Int)⟩ : QItem) ((-1, 0), 'v')).2 < (h : Int)) := by
    simp only [nbr]
    omega
  have e3 : relaxW sg (corridorMaze h) 1 h
      ⟨0, h - 1 - (h - 1), ((h - 1 : Nat) : Int)⟩
      { corridorSt sg h (h - 1) with q := [] } ((0, 1), '<') =
      { corridorSt sg h (h - 1) with q := [] } := by
    by_cases hone : h = 1
    · apply relaxW_oob
      subst hone
      simp only [nbr]
      omega
    · apply relaxW_skip
      · simp only [nbr]
        omega
      · intro hcon
        have hd := hcon.2
        rw [show ((nbr (⟨0, h - 1 - (h - 1), ((h - 1 : Nat) : Int)⟩ : QItem) ((0, 1), '<')).1).toNat = 0
              from by simp only [nbr]; omega,
            show ((nbr (⟨0, h - 1 - (h - 1), ((h - 1 : Nat) : Int)⟩ : QItem) ((0, 1), '<')).2).toNat = 1
              from by simp only [nbr]; omega] at hd
        exact corridorSt_dist_ne sg h (h - 1) 0 1 hsg rfl (by omega) (by omega) hd
  have hb4 : ¬(0 ≤ (nbr (⟨0, h - 1 - (h - 1), ((h - 1 : Nat) : Int)⟩ : QItem) ((0, -1), '>')).1 ∧
      (nbr (⟨0, h - 1 - (h - 1), ((h - 1 : Nat) : Int)⟩ : QItem) ((0, -1), '>')).1 < ((1 : Nat) : Int) ∧
      0 ≤ (nbr (⟨0, h - 1 - (h - 1), ((h - 1 : Nat) : Int)⟩ : QItem) ((0, -1), '>')).2 ∧
      (nbr (⟨0, h - 1 - (h - 1), ((h - 1 : Nat) : Int)⟩ : QItem) ((0, -1), '>')).2 < (h : Int)) := by
    simp only [nbr]
    omega
  rw [stepItemW_unfold,
    relaxW_oob sg (corridorMaze h) 1 h _ _ ((1, 0), '^') hb1,
    relaxW_oob sg (corridorMaze h) 1 h _ _ ((-1, 0), 'v') hb2,
    e3,
    relaxW_oob sg (corridorMaze h) 1 h _ _ ((0, -1), '>') hb4]
  rfl

/-- With fuel at least the number of unprocessed columns, the variants'
loop carries the corridor state to the final state. -/
theorem corridor_loop (sg : Int → Int) (h : Nat) (h1 : 1 ≤ h)
    (hsg : ∀ d : Nat, d ≤ h → sg (d : Int) ≠ -1) :
    ∀ j k : Nat, k ≤ h - 1 → h - k ≤ j →
    loopFuelW sg (corridorMaze h) 1 h j (corridorSt sg h k) =
      some (corridorFin sg h) := by
  intro j
  induction j with
  | zero =>
    intro k hk hj
    exfalso
    omega
  | succ n ih =>
    intro k hk hj
    rw [loopFuelW_cons sg (corridorMaze h) 1 h n (corridorSt sg h k)
      ⟨0, h - 1 - k, (k : Int)⟩ [] rfl]
    by_cases hkend : k = h - 1
    · subst hkend
      rw [corridor_last_step sg h h1 hsg]
      exact loopFuelW_empty sg (corridorMaze h) 1 h n (corridorFin sg h) rfl
    · rw [corridor_step sg h k (by omega) hsg]
      exact ih (k + 1) (by omega) (by omega)

/-- The final corridor distance at the cell farthest from the goal is
the store-cast of the true distance `h - 1`. -/
theorem corridorFin_dist00 (sg : Int → Int) (h : Nat) (h2 : 2 ≤ h) :
    (corridorFin sg h).dist 0 0 = sg ((h - 1 : Nat) : Int) := by
  show (corridorSt sg h (h - 1)).dist 0 0 = _
  rw [corridorSt_dist_eval,
    if_pos (show (0 : Nat) = 0 ∧ h - 1 - (h - 1) ≤ 0 ∧ 0 < h from
      ⟨rfl, by omega, by omega⟩),
    if_neg (show ¬((0 : Nat) = h - 1) from by omega),
    Nat.sub_zero]

/-- The exact flood of the corridor, in closed form. -/
theorem flood_corridor (h : Nat) (h1 : 1 ≤ h) :
    flood (corridorMaze h) 1 h = some
      { distances := (corridorFin id h).dist
        directions := (corridorFin id h).dirs
        is_reachable := directions2reachable (corridorFin id h).dirs 1 h } := by
  unfold flood
  rw [← loopFuelW_id, ← seedPlace_eq, corridor_seed id h h1,
    corridor_loop id h h1 (fun d _ => by simp only [id_eq]; omega)
      (floodFuelBound 1 h) 0 (by omega)
      (show h - 0 ≤ 5 * (1 * h) from by omega)]
  rfl

/-- The `part_000` flood of the corridor, in closed form. -/
theorem flood000_corridor (h : Nat) (h1 : 1 ≤ h)
    (hsg : ∀ d : Nat, d ≤ h → int16cast (d : Int) ≠ -1) :
    flood000 (corridorMaze h) 1 h = some
      { distances := (corridorFin int16cast h).dist
        directions := (corridorFin int16cast h).dirs
        is_reachable := spaceNotIn (corridorFin int16cast h).dirs 1 h } := by
  unfold flood000
  rw [corridor_seed int16cast h h1,
    corridor_loop int16cast h h1 hsg (floodFuelBound 1 h) 0 (by omega)
      (show h - 0 ≤ 5 * (1 * h) from by omega)]
  rfl

/-- The `part_002` flood of the corridor, in closed form. -/
theorem flood002_corridor (h : Nat) (h1 : 1 ≤ h)
    (hsg : ∀ d : Nat, d ≤ h → int16cast (d : Int) ≠ -1) :
    flood002 (corridorMaze h) 1 h = some
      { distances := (corridorFin int16cast h).dist
        directions := (corridorFin int16cast h).dirs
        is_reachable := spaceNotIn (corridorFin int16cast h).dirs 1 h } := by
  unfold flood002
  rw [loopFuel002_eq, corridor_seed int16cast h h1,
    corridor_loop int16cast h h1 hsg (floodFuelBound 1 h) 0 (by omega)
      (show h - 0 ≤ 5 * (1 * h) from by omega)]
  rfl

/-! ## Example grids (the worked example of the documentation) -/


/-! ## Claim theorems -/

/-- C1: for every valid rectangular grid, `flood` produces a distance
field holding `-1` exactly on walls and open cells with no path to any
goal, `0` on every goal cell, and on every other cell exactly the length
of a shortest cardinal-hop path (walls impassable) to the nearest goal. -/
theorem flood_distance_field_exact (maze : Grid) (w h x y : Nat) (d : Int)
    (hx : x < w) (hy : y < h) (hd : floodDist maze w h x y = some d) :
    (d = -1 ↔ (maze x y < 0 ∨ ∀ n : Nat, ¬Reach maze w h x y n)) ∧
    (maze x y = 1 → d = 0) ∧
    (∀ n : Nat, d = (n : Int) ↔
      (Reach maze w h x y n ∧ ∀ m : Nat, m < n → ¬Reach maze w h x y m)) := by
  obtain ⟨s2, hinv, hq, he⟩ := flood_eq maze w h
  unfold floodDist at hd
  rw [he] at hd
  replace hd : s2.dist x y = d := Option.some.inj hd
  subst hd
  obtain ⟨hiff, hexact⟩ := final_dist_char maze w h s2 hinv hq x y hx hy
  exact ⟨hiff, fun hg => hinv.goalZero x y hx hy hg, hexact⟩

/-- Witness for C1 at the worked example's cell (0,0), distance 6. -/
theorem flood_distance_field_exact_witness :
    (0 : Nat) < 3 ∧ floodDist exMaze 3 3 0 0 = some 6 ∧
    (((6 : Int) = -1 ↔ (exMaze 0 0 < 0 ∨ ∀ n : Nat, ¬Reach exMaze 3 3 0 0 n)) ∧
     (exMaze 0 0 = 1 → (6 : Int) = 0) ∧
     (∀ n : Nat, (6 : Int) = (n : Int) ↔
       (Reach exMaze 3 3 0 0 n ∧ ∀ m : Nat, m < n → ¬Reach exMaze 3 3 0 0 m))) :=
  ⟨by decide, by decide,
    flood_distance_field_exact exMaze 3 3 0 0 6 (by decide) (by decide) (by decide)⟩

/-- C2: from any in-bounds start tagged with an arrow or `GOAL`, the
path built on the flood's direction field is `.ok`, has exactly
`DistanceField[r,c] + 1` coordinates, starts at `(r,c)`, ends on a cell
of distance `0`, and each consecutive pair is one cardinal step apart. -/
theorem flood_path_spec (maze : Grid) (w h : Nat) (r c : Int) (d : Int)
    (ch : Char) (pr : PathResult)
    (hr0 : 0 ≤ r) (hrw : r < (w : Int)) (hc0 : 0 ≤ c) (hcb : c < (h : Int))
    (hdist : floodDist maze w h r.toNat c.toNat = some d)
    (hdir : floodDir maze w h r.toNat c.toNat = some ch)
    (htag : ch = 'X' ∨ ch ∈ arrowChars)
    (hpath : floodPath maze w h r c = some pr) :
    ∃ p : List (Int × Int), pr = PathResult.ok p ∧
      p.length = d.toNat + 1 ∧
      p.head? = some (r, c) ∧
      (∃ rest : List (Int × Int), p = (r, c) :: rest ∧
        List.Chain CardStep (r, c) rest) ∧
      (∀ z : Int × Int, p.getLast? = some z →
        floodDist maze w h z.1.toNat z.2.toNat = some 0) := by
  obtain ⟨s2, hinv, hq, he⟩ := flood_eq maze w h
  unfold floodDist at hdist
  rw [he] at hdist
  replace hdist : s2.dist r.toNat c.toNat = d := Option.some.inj hdist
  unfold floodDir at hdir
  rw [he] at hdir
  replace hdir : s2.dirs r.toNat c.toNat = ch := Option.some.inj hdir
  unfold floodPath at hpath
  rw [he] at hpath
  replace hpath : build_path s2.dirs w h r c (w * h + 1) = pr :=
    Option.some.inj hpath
  have hdge : 0 ≤ d := by
    rcases hinv.tri r.toNat c.toNat (by omega) (by omega) with
      ⟨hd2, hc2 | hc2⟩ | ⟨hd2, _⟩ | ⟨hd2, _⟩
    · rw [hdir] at hc2
      rcases htag with rfl | ha
      · exact absurd hc2 (by decide)
      · exact absurd hc2 (arrow_ne_hash ha)
    · rw [hdir] at hc2
      rcases htag with rfl | ha
      · exact absurd hc2 (by decide)
      · exact absurd hc2 (arrow_ne_space ha)
    · omega
    · omega
  have hdn : s2.dist r.toNat c.toNat = ((d.toNat : Nat) : Int) := by
    rw [hdist]; omega
  have hlt := dist_lt_area hinv (show r.toNat < w by omega)
    (show c.toNat < h by omega) hdn
  obtain ⟨rest, hres, hlen, hchain, hinb, hlast⟩ :=
    build_path_ok maze w h s2 hinv r c d.toNat (w * h + 1)
      hr0 hrw hc0 hcb hdn (by omega)
  refine ⟨(r, c) :: rest, by rw [← hpath, hres], ?_, rfl,
    ⟨rest, rfl, hchain⟩, ?_⟩
  · simp [hlen]
  · intro z hz
    unfold floodDist
    rw [he]
    exact congrArg some (hlast z hz).1

/-- Witness for C2 along the worked example's documented path from (0,0). -/
theorem flood_path_spec_witness :
    floodDist exMaze 3 3 0 0 = some 6 ∧
    floodDir exMaze 3 3 0 0 = some 'v' ∧
    floodPath exMaze 3 3 0 0 = some (PathResult.ok
      [(0, 0), (1, 0), (2, 0), (2, 1), (2, 2), (1, 2), (0, 2)]) ∧
    (∃ p : List (Int × Int),
      PathResult.ok [(0, 0), (1, 0), (2, 0), (2, 1), (2, 2), (1, 2), (0, 2)] =
        PathResult.ok p ∧
      p.length = (6 : Int).toNat + 1 ∧
      p.head? = some (0, 0) ∧
      (∃ rest : List (Int × Int), p = (0, 0) :: rest ∧
        List.Chain CardStep (0, 0) rest) ∧
      (∀ z : Int × Int, p.getLast? = some z →
        floodDist exMaze 3 3 z.1.toNat z.2.toNat = some 0)) :=
  ⟨by decide, by decide, by decide,
    flood_path_spec exMaze 3 3 0 0 6 'v'
      (PathResult.ok [(0, 0), (1, 0), (2, 0), (2, 1), (2, 2), (1, 2), (0, 2)])
      (by decide) (by decide) (by decide) (by decide) (by decide) (by decide)
      (by decide) (by decide)⟩

/-- C3 counterexample: analysing the empty grid raises nothing — it
completes with a full result (shape 1 × 0 after `np.atleast_2d`) whose
reachability flag is `true`; no `InvalidGridError` exists in the code. -/
theorem mazeAnalysis_empty_completes :
    analysisOk ([] : List (List Int)) = true ∧
    analysisReach [] = some true := by
  constructor <;> decide

/-- C3 amended: the code defines no `InvalidGridError` and performs no
validation.  Every rectangular input — the empty grid included — is
analysed to completion with a full result, and a jagged (non-rectangular)
input fails with numpy's own error raised inside `astype('int8')`
(modelled by `numpyTypeError`), not with an engine-defined error; the
engine's only defined error is `NoPathExistsException` from `build_path`. -/
theorem mazeAnalysis_no_invalid_grid_error (g : List (List Int)) :
    (isRectangular g = true → analysisOk g = true) ∧
    (isRectangular g = false →
      mazeAnalysis g = some AnalysisOutcome.numpyTypeError) := by
  constructor
  · intro hrect
    obtain ⟨s2, hinv, hq, he⟩ := flood_eq
      (fun a b => int8cast (gridFun g a b)) (atleast2dRows g) (atleast2dCols g)
    unfold analysisOk mazeAnalysis
    rw [if_pos hrect, he]
    rfl
  · intro hrect
    unfold mazeAnalysis
    rw [if_neg (by rw [hrect]; exact Bool.false_ne_true)]

/-- Witness for C3's amended claim at the empty grid, which is
rectangular and analyses to completion. -/
theorem mazeAnalysis_no_invalid_grid_error_witness :
    isRectangular ([] : List (List Int)) = true ∧
    analysisOk ([] : List (List Int)) = true :=
  ⟨by decide, (mazeAnalysis_no_invalid_grid_error []).1 (by decide)⟩

/-- C4: the flood's two fields satisfy `dist = -1` iff the direction tag
is WALL (`'#'`) or NONE (`' '`), and `dist = 0` iff the tag is GOAL
(`'X'`), on every in-bounds cell. -/
theorem flood_dist_dir_correspondence (maze : Grid) (w h x y : Nat)
    (d : Int) (ch : Char) (hx : x < w) (hy : y < h)
    (hd : floodDist maze w h x y = some d)
    (hc : floodDir maze w h x y = some ch) :
    (d = -1 ↔ (ch = '#' ∨ ch = ' ')) ∧ (d = 0 ↔ ch = 'X') := by
  obtain ⟨s2, hinv, hq, he⟩ := flood_eq maze w h
  unfold floodDist at hd
  rw [he] at hd
  replace hd : s2.dist x y = d := Option.some.inj hd
  unfold floodDir at hc
  rw [he] at hc
  replace hc : s2.dirs x y = ch := Option.some.inj hc
  rw [← hd, ← hc]
  rcases hinv.tri x y hx hy with ⟨h1, h2 | h2⟩ | ⟨h1, h2⟩ | ⟨h1, h2⟩
  · rw [h1, h2]; decide
  · rw [h1, h2]; decide
  · rw [h1, h2]; decide
  · constructor
    · refine iff_of_false (by omega) ?_
      rintro (hc2 | hc2)
      · exact arrow_ne_hash h2 hc2
      · exact arrow_ne_space h2 hc2
    · exact iff_of_false (by omega) (arrow_ne_X h2)

/-- Witness for C4 at the worked example's wall cell (0,1). -/
theorem flood_dist_dir_correspondence_witness :
    floodDist exMaze 3 3 0 1 = some (-1) ∧
    floodDir exMaze 3 3 0 1 = some '#' ∧
    (((-1 : Int) = -1 ↔ ('#' = '#' ∨ '#' = ' ')) ∧
     ((-1 : Int) = 0 ↔ '#' = 'X')) :=
  ⟨by decide, by decide,
    flood_dist_dir_correspondence exMaze 3 3 0 1 (-1) '#'
      (by decide) (by decide) (by decide) (by decide)⟩

/-- C5: the reachability boolean is true iff no in-bounds cell of the
direction field holds NONE (`' '`); a grid with zero open non-goal cells
(all walls and goals) is vacuously reachable. -/
theorem flood_reachability_iff_no_none (maze : Grid) (w h : Nat) (b : Bool)
    (hb : floodReach maze w h = some b) :
    (b = true ↔ ∀ x y : Nat, x < w → y < h →
      floodDir maze w h x y ≠ some ' ') := by
  obtain ⟨s2, hinv, hq, he⟩ := flood_eq maze w h
  unfold floodReach at hb
  rw [he] at hb
  replace hb : directions2reachable s2.dirs w h = b := Option.some.inj hb
  rw [← hb, d2r_iff]
  constructor
  · intro hall x y hx hy hcon
    unfold floodDir at hcon
    rw [he] at hcon
    replace hcon : s2.dirs x y = ' ' := Option.some.inj hcon
    exact hall x y hx hy hcon
  · intro hall x y hx hy hsp
    apply hall x y hx hy
    unfold floodDir
    rw [he]
    exact congrArg some hsp

/-- Witness for C5 on the all-wall 1 × 1 grid: no open cell exists, so
the flag is vacuously true. -/
theorem flood_reachability_iff_no_none_witness :
    floodReach exWallMaze 1 1 = some true ∧
    ((true : Bool) = true ↔ ∀ x y : Nat, x < 1 → y < 1 →
      floodDir exWallMaze 1 1 x y ≠ some ' ') :=
  ⟨by decide, flood_reachability_iff_no_none exWallMaze 1 1 true (by decide)⟩

/-- C6: on the flood's direction field, `build_path` signals
`NoPathExistsException` exactly when the (in-bounds) start cell is tagged
WALL or NONE; in that case it yields no partial path (the embedding
returns only the error marker, and the analysis is untouched since
`build_path` is read-only). -/
theorem path_noPath_iff_wall_or_none (maze : Grid) (w h : Nat) (r c : Int)
    (pr : PathResult) (ch : Char)
    (hr0 : 0 ≤ r) (hrw : r < (w : Int)) (hc0 : 0 ≤ c) (hcb : c < (h : Int))
    (hpath : floodPath maze w h r c = some pr)
    (hdir : floodDir maze w h r.toNat c.toNat = some ch) :
    (pr = PathResult.noPathError ↔ (ch = '#' ∨ ch = ' ')) := by
  obtain ⟨s2, hinv, hq, he⟩ := flood_eq maze w h
  unfold floodPath at hpath
  rw [he] at hpath
  replace hpath : build_path s2.dirs w h r c (w * h + 1) = pr :=
    Option.some.inj hpath
  unfold floodDir at hdir
  rw [he] at hdir
  replace hdir : s2.dirs r.toNat c.toNat = ch := Option.some.inj hdir
  rw [← hpath, ← hdir]
  exact build_path_noPath_iff s2.dirs w h r c _ hr0 hrw hc0 hcb

/-- Witness for C6 at the worked example's wall start (1,1). -/
theorem path_noPath_iff_wall_or_none_witness :
    floodPath exMaze 3 3 1 1 = some PathResult.noPathError ∧
    floodDir exMaze 3 3 1 1 = some '#' ∧
    (PathResult.noPathError = PathResult.noPathError ↔
      ('#' = '#' ∨ '#' = ' ')) :=
  ⟨by decide, by decide,
    path_noPath_iff_wall_or_none exMaze 3 3 1 1 PathResult.noPathError '#'
      (by decide) (by decide) (by decide) (by decide) (by decide) (by decide)⟩

/-- C7: `flood` always terminates with a complete result on every
rectangular grid: the explicit fuel `5·w·h` (justified by each cell
being enqueued at most once, paid through the measure `mu`) is always
sufficient, and no error is ever produced. -/
theorem flood_always_terminates (maze : Grid) (w h : Nat) :
    (flood maze w h).isSome = true :=
  flood_isSome maze w h

/-- C8 counterexample: the value 200 (outside the int8 range) is
non-negative, yet the analysis classifies the cell as a WALL with
distance `-1`, because `MazeAnalysis.__init__` first casts the grid with
`astype('int8')`, wrapping 200 to −56. -/
theorem analysis_int8_counterexample :
    (0 : Int) ≤ 200 ∧
    analysisDir [[200, 1]] 0 0 = some '#' ∧
    analysisDist [[200, 1]] 0 0 = some (-1) ∧
    int8cast 200 = -56 := by
  refine ⟨by decide, by decide, by decide, by decide⟩

/-- C8 amended: the analysis classifies a cell as a wall (tag `'#'`)
iff the cell's value **cast to int8** (wrap-around) is negative; values
like 200 wrap to negatives and become walls even though they are
non-negative. -/
theorem analysis_wall_iff_int8cast (g : List (List Int)) (x y : Nat)
    (ch : Char) (hx : x < atleast2dRows g) (hy : y < atleast2dCols g)
    (hch : analysisDir g x y = some ch) :
    (ch = '#' ↔ int8cast (gridFun g x y) < 0) := by
  obtain ⟨s2, hinv, hq, he⟩ := flood_eq
    (fun a b => int8cast (gridFun g a b)) (atleast2dRows g) (atleast2dCols g)
  unfold analysisDir mazeAnalysis at hch
  by_cases hrect : isRectangular g = true
  · rw [if_pos hrect, he] at hch
    replace hch : s2.dirs x y = ch := Option.some.inj hch
    rw [← hch]
    exact hinv.wallIff x y hx hy
  · rw [if_neg hrect] at hch
    cases hch

/-- Witness for C8's amended claim at the wrapped cell (0,0) of
`[[200, 1]]`. -/
theorem analysis_wall_iff_int8cast_witness :
    (0 : Nat) < atleast2dRows [[200, 1]] ∧
    (0 : Nat) < atleast2dCols [[200, 1]] ∧
    analysisDir [[200, 1]] 0 0 = some '#' ∧
    ('#' = '#' ↔ int8cast (gridFun [[200, 1]] 0 0) < 0) :=
  ⟨by decide, by decide, by decide,
    analysis_wall_iff_int8cast [[200, 1]] 0 0 '#'
      (by decide) (by decide) (by decide)⟩

/-- C9 (counterexample to the claimed equivalence): on a 1 × 40000
corridor with the single goal at the far end, `flood` reports the true
distance 39999 at the far cell, while the int16 distance arrays of
`part_000` and `part_002` wrap the stored value to -25537, so their
outputs differ from the `analysis.pyx` flood. -/
theorem flood_variants_int16_counterexample :
    floodDist (corridorMaze 40000) 1 40000 0 0 = some 39999 ∧
    flood000Dist (corridorMaze 40000) 1 40000 0 0 = some (-25537) ∧
    flood002Dist (corridorMaze 40000) 1 40000 0 0 = some (-25537) ∧
    flood000 (corridorMaze 40000) 1 40000 ≠ flood (corridorMaze 40000) 1 40000 ∧
    flood002 (corridorMaze 40000) 1 40000 ≠ flood (corridorMaze 40000) 1 40000 := by
  have hsg16 : ∀ d : Nat, d ≤ 40000 → int16cast (d : Int) ≠ -1 := by
    intro d hd
    unfold int16cast
    omega
  have hflood := flood_corridor 40000 (by omega)
  have h000 := flood000_corridor 40000 (by omega) hsg16
  have h002 := flood002_corridor 40000 (by omega) hsg16
  have harg : ((40000 - 1 : Nat) : Int) = (39999 : Int) := by norm_num
  have hwrap : int16cast (39999 : Int) = -25537 := by
    unfold int16cast
    omega
  have hv1 : floodDist (corridorMaze 40000) 1 40000 0 0 = some 39999 := by
    unfold floodDist
    rw [hflood]
    show some ((corridorFin id 40000).dist 0 0) = some (39999 : Int)
    rw [corridorFin_dist00 id 40000 (by omega), id_eq, harg]
  have hv2 : flood000Dist (corridorMaze 40000) 1 40000 0 0 = some (-25537) := by
    unfold flood000Dist
    rw [h000]
    show some ((corridorFin int16cast 40000).dist 0 0) = some (-25537 : Int)
    rw [corridorFin_dist00 int16cast 40000 (by omega), harg, hwrap]
  have hv3 : flood002Dist (corridorMaze 40000) 1 40000 0 0 = some (-25537) := by
    unfold flood002Dist
    rw [h002]
    show some ((corridorFin int16cast 40000).dist 0 0) = some (-25537 : Int)
    rw [corridorFin_dist00 int16cast 40000 (by omega), harg, hwrap]
  refine ⟨hv1, hv2, hv3, ?_, ?_⟩
  · intro heq
    have hcon : (some (-25537 : Int)) = some (39999 : Int) := by
      rw [← hv1, ← hv2]
      unfold flood000Dist floodDist
      rw [heq]
    exact absurd hcon (by decide)
  · intro heq
    have hcon : (some (-25537 : Int)) = some (39999 : Int) := by
      rw [← hv1, ← hv3]
      unfold flood002Dist floodDist
      rw [heq]
    exact absurd hcon (by decide)

/-- C9 (amended): on every grid whose area is below 32768 no stored
distance reaches the int16 range boundary, and the three analysis
engines (`analysis.pyx` flood, `part_000`, `part_002`) produce
identical distance fields, direction fields and reachability flags;
on larger grids the int16 distance arrays of the variants can wrap
while the int32 array of `analysis.pyx` does not. -/
theorem flood_variants_agree_below_int16 (maze : Grid) (w h : Nat)
    (hwh : w * h < 32768) :
    flood002 maze w h = flood maze w h ∧ flood000 maze w h = flood maze w h :=
  ⟨flood002_small maze w h hwh, flood000_small maze w h hwh⟩

/-- Witness for the amended C9 on the worked 3 × 3 example. -/
theorem flood_variants_agree_below_int16_witness :
    3 * 3 < 32768 ∧
    (flood002 exMaze 3 3 = flood exMaze 3 3 ∧
     flood000 exMaze 3 3 = flood exMaze 3 3) :=
  ⟨by decide, flood_variants_agree_below_int16 exMaze 3 3 (by decide)⟩


/-- C10: from any in-bounds start tagged with an arrow or GOAL, every
coordinate the path builder appends stays inside the grid, so the
unchecked (`boundscheck(False)`) reads of the direction field never go
out of bounds: the out-of-bounds marker is never produced. -/
theorem flood_path_in_bounds (maze : Grid) (w h : Nat) (r c : Int)
    (d : Int) (ch : Char) (pr : PathResult)
    (hr0 : 0 ≤ r) (hrw : r < (w : Int)) (hc0 : 0 ≤ c) (hcb : c < (h : Int))
    (hdist : floodDist maze w h r.toNat c.toNat = some d)
    (hdir : floodDir maze w h r.toNat c.toNat = some ch)
    (htag : ch = 'X' ∨ ch ∈ arrowChars)
    (hpath : floodPath maze w h r c = some pr) :
    ∃ p : List (Int × Int), pr = PathResult.ok p ∧
      pr ≠ PathResult.outOfBounds ∧
      ∀ z ∈ p, 0 ≤ z.1 ∧ z.1 < (w : Int) ∧ 0 ≤ z.2 ∧ z.2 < (h : Int) := by
  obtain ⟨s2, hinv, hq, he⟩ := flood_eq maze w h
  unfold floodDist at hdist
  rw [he] at hdist
  replace hdist : s2.dist r.toNat c.toNat = d := Option.some.inj hdist
  unfold floodDir at hdir
  rw [he] at hdir
  replace hdir : s2.dirs r.toNat c.toNat = ch := Option.some.inj hdir
  unfold floodPath at hpath
  rw [he] at hpath
  replace hpath : build_path s2.dirs w h r c (w * h + 1) = pr :=
    Option.some.inj hpath
  have hdge : 0 ≤ d := by
    rcases hinv.tri r.toNat c.toNat (by omega) (by omega) with
      ⟨hd2, hc2 | hc2⟩ | ⟨hd2, _⟩ | ⟨hd2, _⟩
    · rw [hdir] at hc2
      rcases htag with rfl | ha
      · exact absurd hc2 (by decide)
      · exact absurd hc2 (arrow_ne_hash ha)
    · rw [hdir] at hc2
      rcases htag with rfl | ha
      · exact absurd hc2 (by decide)
      · exact absurd hc2 (arrow_ne_space ha)
    · omega
    · omega
  have hdn : s2.dist r.toNat c.toNat = ((d.toNat : Nat) : Int) := by
    rw [hdist]; omega
  have hlt := dist_lt_area hinv (show r.toNat < w by omega)
    (show c.toNat < h by omega) hdn
  obtain ⟨rest, hres, hlen, hchain, hinb, hlast⟩ :=
    build_path_ok maze w h s2 hinv r c d.toNat (w * h + 1)
      hr0 hrw hc0 hcb hdn (by omega)
  refine ⟨(r, c) :: rest, by rw [← hpath, hres], ?_, hinb⟩
  rw [← hpath, hres]
  intro hcon
  cases hcon

/-- Witness for C10 on the worked example's path from (0,0). -/
theorem flood_path_in_bounds_witness :
    floodDist exMaze 3 3 0 0 = some 6 ∧
    floodDir exMaze 3 3 0 0 = some 'v' ∧
    floodPath exMaze 3 3 0 0 = some (PathResult.ok
      [(0, 0), (1, 0), (2, 0), (2, 1), (2, 2), (1, 2), (0, 2)]) ∧
    (∃ p : List (Int × Int),
      PathResult.ok [(0, 0), (1, 0), (2, 0), (2, 1), (2, 2), (1, 2), (0, 2)] =
        PathResult.ok p ∧
      PathResult.ok [(0, 0), (1, 0), (2, 0), (2, 1), (2, 2), (1, 2), (0, 2)] ≠
        PathResult.outOfBounds ∧
      ∀ z ∈ p, 0 ≤ z.1 ∧ z.1 < (3 : Int) ∧ 0 ≤ z.2 ∧ z.2 < (3 : Int)) :=
  ⟨by decide, by decide, by decide,
    flood_path_in_bounds exMaze 3 3 0 0 6 'v'
      (PathResult.ok [(0, 0), (1, 0), (2, 0), (2, 1), (2, 2), (1, 2), (0, 2)])
      (by decide) (by decide) (by decide) (by decide) (by decide) (by decide)
      (by decide) (by decide)⟩

end MazeSpec
